import Mathlib

/-!
# Verification of the thread-pool LPT scheduler (`src/solver.py`)

Shallow embedding of the scheduling core of the repository: the `Job`,
`ThreadSlot`, `Worker` data model, the `ThreadPoolScheduler` with its
`greedy_lpt` algorithm and `_build_schedule` timetable derivation, and the
summary metrics of `print_summary`.

Modelling conventions:
* Python floats are modelled as rationals (`ℚ`); the program only ever adds,
  divides and compares duration values.
* Python in-place mutation is modelled by explicit state passing: methods
  that mutate an object return the updated object (and the updated `Job`).
* Python expressions that can raise (`min()` / `max()` of an empty sequence,
  division by zero) are modelled in `Option`, with `none` for the raise.
* Python's `min(seq, key=f)` returns the first element realising the minimal
  key; `minBy` below returns that element together with its index, which the
  functional embedding needs in order to write the mutated element back.
* Dictionaries keyed `"worker_i"` / `"thread_j"` (built in construction order
  `i = 0, 1, ...`) are modelled positionally as nested lists.
-/

namespace Solver

/-- Embedding of the Python dataclass `Job` (`solver.py` lines 5-15).
`assigned_worker`, `thread_id`, `start_time`, `end_time` default to `-1`. -/
structure Job where
  id : ℕ
  duration : ℚ
  assigned_worker : ℤ
  thread_id : ℤ
  start_time : ℚ
  end_time : ℚ
  deriving Repr, DecidableEq

/-- A fresh job, as built by `ThreadPoolScheduler.__init__`:
`Job(i, duration)` with the four outcome fields at their `-1` defaults. -/
def Job.fresh (i : ℕ) (d : ℚ) : Job :=
  ⟨i, d, -1, -1, -1, -1⟩

/-- Embedding of the Python dataclass `ThreadSlot` (lines 18-37). -/
structure ThreadSlot where
  thread_id : ℕ
  jobs : List Job
  deriving Repr, DecidableEq

/-- Embeds `ThreadSlot.get_end_time`: end time of the last job, `0.0` if empty. -/
def ThreadSlot.get_end_time (s : ThreadSlot) : ℚ :=
  match s.jobs.getLast? with
  | none => 0
  | some j => j.end_time

/-- Embeds `ThreadSlot.get_available_time`: alias for `get_end_time`. -/
def ThreadSlot.get_available_time (s : ThreadSlot) : ℚ :=
  s.get_end_time

/-- Embeds `ThreadSlot.add_job`: writes the job's outcome fields (note the source
sets `job.assigned_worker = -1` here, clobbering whatever was there) and
appends the job.  Mutation is modelled by returning the updated slot and the
updated job. -/
def ThreadSlot.add_job (s : ThreadSlot) (job : Job) : ThreadSlot × Job :=
  let available_time := s.get_available_time
  let j : Job := { job with
    assigned_worker := -1
    thread_id := (s.thread_id : ℤ)
    start_time := available_time
    end_time := available_time + job.duration }
  ({ s with jobs := s.jobs ++ [j] }, j)

/-- Embedding of Python's `max(l, default=dflt)`: the default is used only
when the list is empty (it does not otherwise participate in the maximum). -/
def pymax (l : List ℚ) (dflt : ℚ) : ℚ :=
  match l with
  | [] => dflt
  | x :: xs => xs.foldl max x

/-- Embedding of Python's `max(l)` with no default: raises on `[]`. -/
def pymax1 (l : List ℚ) : Option ℚ :=
  match l with
  | [] => none
  | x :: xs => some (xs.foldl max x)

/-- Embedding of Python's `min(l)` with no default: raises on `[]`. -/
def pymin1 (l : List ℚ) : Option ℚ :=
  match l with
  | [] => none
  | x :: xs => some (xs.foldl min x)

/-- Embedding of Python's `min(l, key=f)`: first element with minimal key,
returned with its index (`none` when the list is empty, where Python
raises `ValueError`). -/
def minBy {α : Type} (f : α → ℚ) : List α → Option (ℕ × α)
  | [] => none
  | x :: xs =>
    match minBy f xs with
    | none => some (0, x)
    | some (i, y) => if f x ≤ f y then some (0, x) else some (i + 1, y)

/-- Embedding of the Python dataclass `Worker` (lines 40-58). -/
structure Worker where
  id : ℕ
  threads : List ThreadSlot
  deriving Repr, DecidableEq

/-- Embeds `Worker(id, num_threads)`: `__post_init__` builds slots `0 .. T-1`. -/
def Worker.make (id num_threads : ℕ) : Worker :=
  ⟨id, (List.range num_threads).map fun i => ⟨i, []⟩⟩

/-- Embeds `Worker.get_earliest_available_thread`: `min(self.threads, key=avail)`;
`none` models the `ValueError` raised when a worker has no threads. -/
def Worker.get_earliest_available_thread (w : Worker) : Option (ℕ × ThreadSlot) :=
  minBy ThreadSlot.get_available_time w.threads

/-- The available time of the earliest available thread, the key used by
`greedy_lpt`'s worker selection. -/
def Worker.earliestAvail (w : Worker) : Option ℚ :=
  w.get_earliest_available_thread.map fun p => p.2.get_available_time

/-- Embeds `Worker.get_total_end_time`: `max([t.get_end_time() ...], default=0.0)`. -/
def Worker.get_total_end_time (w : Worker) : ℚ :=
  pymax (w.threads.map ThreadSlot.get_end_time) 0

/-- Embeds `Worker.assign_job`: pick the earliest available thread, write the
worker id into the job (immediately clobbered back to `-1` inside
`ThreadSlot.add_job` — a quirk of the source), and add the job there. -/
def Worker.assign_job (w : Worker) (job : Job) : Option (Worker × Job) :=
  match w.get_earliest_available_thread with
  | none => none
  | some (ti, t) =>
    let p := t.add_job { job with assigned_worker := (w.id : ℤ) }
    some ({ w with threads := w.threads.set ti p.1 }, p.2)

/-- Worker selection of `greedy_lpt`:
`min(workers, key=λ w. w.get_earliest_available_thread().get_available_time())`.
Returns (index, worker, key); `none` models the exceptions raised when the
worker list is empty or some worker has no threads. -/
def selectWorker : List Worker → Option (ℕ × Worker × ℚ)
  | [] => none
  | w :: ws =>
    match w.earliestAvail with
    | none => none
    | some k =>
      match ws with
      | [] => some (0, w, k)
      | _ :: _ =>
        match selectWorker ws with
        | none => none
        | some (i, w', k') =>
          if k ≤ k' then some (0, w, k) else some (i + 1, w', k')

/-- One iteration of the `for job in sorted_jobs` loop of `greedy_lpt`:
select the best worker and assign the job to it, writing the mutated worker
back into the list. -/
def stepAssign (ws : List Worker) (job : Job) : Option (List Worker × Job) :=
  match selectWorker ws with
  | none => none
  | some (wi, w, _) =>
    match w.assign_job job with
    | none => none
    | some (w', j') => some (ws.set wi w', j')

/-- The whole assignment loop; also collects the updated jobs in processing
order (in Python these updates happen in place on the shared `Job` objects). -/
def runJobs : List Worker → List Job → Option (List Worker × List Job)
  | ws, [] => some (ws, [])
  | ws, j :: js =>
    match stepAssign ws j with
    | none => none
    | some (ws1, j') =>
      match runJobs ws1 js with
      | none => none
      | some (ws2, us) => some (ws2, j' :: us)

/-- Insertion step of a stable descending sort by duration: the new job goes
in front of the first strictly shorter job, hence after all equal ones. -/
def insertDesc (j : Job) : List Job → List Job
  | [] => [j]
  | x :: xs => if x.duration < j.duration then j :: x :: xs else x :: insertDesc j xs

/-- Embedding of `sorted(jobs, key=λ j. j.duration, reverse=True)`: a stable
sort, descending by duration (Python's sort is stable, and `reverse=True`
keeps equal elements in input order). -/
def sortJobsDesc (l : List Job) : List Job :=
  l.foldl (fun acc j => insertDesc j acc) []

/-- One `(job_id, duration, start_time, end_time)` record of the timetable
dictionary built by `_build_schedule`. -/
structure ScheduleEntry where
  job_id : ℕ
  duration : ℚ
  start_time : ℚ
  end_time : ℚ
  deriving Repr, DecidableEq

/-- The timetable: worker → thread → ordered job records.  The Python dict
keys `"worker_i"`, `"thread_j"` are in construction order, so the two dict
levels are modelled positionally. -/
abbrev Schedule := List (List (List ScheduleEntry))

/-- Embeds `ThreadPoolScheduler._build_schedule`. -/
def build_schedule (workers : List Worker) : Schedule :=
  workers.map fun w => w.threads.map fun t =>
    t.jobs.map fun j => ⟨j.id, j.duration, j.start_time, j.end_time⟩

/-- Embedding of the `ThreadPoolScheduler` object state. -/
structure ThreadPoolScheduler where
  num_workers : ℕ
  threads_per_worker : ℕ
  jobs : List Job
  num_jobs : ℕ
  deriving Repr, DecidableEq

/-- Embeds `ThreadPoolScheduler.__init__`: stores the counts and builds one fresh
`Job` per duration, with id = position in the input list.  The source
performs no validation whatsoever. -/
def ThreadPoolScheduler.init (num_workers threads_per_worker : ℕ)
    (durations : List ℚ) : ThreadPoolScheduler :=
  { num_workers := num_workers
    threads_per_worker := threads_per_worker
    jobs := durations.enum.map fun p => Job.fresh p.1 p.2
    num_jobs := durations.length }

/-- The constructor seen as a fallible operation (a Python constructor can
in principle raise).  The source body contains no check and no `raise`, so
the result is always `.ok`. -/
def ThreadPoolScheduler.initChecked (num_workers threads_per_worker : ℕ)
    (durations : List ℚ) : Except String ThreadPoolScheduler :=
  .ok (ThreadPoolScheduler.init num_workers threads_per_worker durations)

/-- The post-run contents of `self.jobs`: the run of `greedy_lpt` mutates
the shared `Job` objects in place, and with the unique ids produced by
`__init__`, looking each job's update up by id reproduces that aliasing. -/
def postJobs (jobs updated : List Job) : List Job :=
  jobs.map fun j => (updated.find? fun u => u.id == j.id).getD j

/-- Embeds `ThreadPoolScheduler.greedy_lpt` (lines 68-80): stable-sort jobs
by descending duration, build fresh workers, assign each job to the worker
whose least-loaded thread slot is earliest available, and return the `max`
worker end time, the timetable, and the post-run job list. -/
def ThreadPoolScheduler.greedy_lpt (s : ThreadPoolScheduler) :
    Option (ℚ × Schedule × List Job) :=
  let sorted_jobs := sortJobsDesc s.jobs
  let workers := (List.range s.num_workers).map fun i =>
    Worker.make i s.threads_per_worker
  match runJobs workers sorted_jobs with
  | none => none
  | some (ws, updated) =>
    let total_time := pymax (ws.map Worker.get_total_end_time) 0
    some (total_time, build_schedule ws, postJobs s.jobs updated)

/-- The numbers computed (and printed) by `ThreadPoolScheduler.print_summary`. -/
structure Summary where
  total_job_time : ℚ
  total_time : ℚ
  theoretical_minimum : ℚ
  avg_worker_time : ℚ
  max_worker_time : ℚ
  min_worker_time : ℚ
  load_balance_index : ℚ
  utilization : ℚ
  deriving Repr, DecidableEq

/-- Embeds `ThreadPoolScheduler.print_summary` (lines 139-171), as the record of
values it prints; `none` models the `ZeroDivisionError` (or `ValueError` of
`max`/`min` on an empty sequence) the Python code raises.  Guards appear in
the order Python would hit the exceptions: the theoretical-minimum division
by `W*T`, the average division by `len(worker_times)`, then the
load-balance division by the average.  (`sorted(schedule.keys())` only
permutes `worker_times`, which none of the aggregates depend on, so the
worker order of the timetable is used directly.)  The one guarded division
in the source is the utilization (`if total_thread_time > 0 else 0`). -/
def ThreadPoolScheduler.print_summary (s : ThreadPoolScheduler) (total_time : ℚ)
    (schedule : Schedule) : Option Summary :=
  let total_job_time := (s.jobs.map Job.duration).sum
  let denom : ℚ := ((s.num_workers * s.threads_per_worker : ℕ) : ℚ)
  if denom = 0 then none
  else
    let theoretical_minimum := total_job_time / denom
    let worker_times := schedule.map fun wsch =>
      pymax (wsch.map fun jobs => pymax (jobs.map ScheduleEntry.end_time) 0) 0
    match pymax1 worker_times, pymin1 worker_times with
    | some mx, some mn =>
      let avg := worker_times.sum / (worker_times.length : ℚ)
      if avg = 0 then none
      else
        let lb := mx / avg
        let total_thread_time := worker_times.sum * ((s.threads_per_worker : ℕ) : ℚ)
        let utilization :=
          if 0 < total_thread_time then total_job_time / total_thread_time * 100 else 0
        some ⟨total_job_time, total_time, theoretical_minimum, avg, mx, mn, lb, utilization⟩
    | _, _ => none

/-! ## Derived notions used to state the properties -/

/-- The data of a job that the algorithm's decisions can depend on:
its id and its duration (all other fields are overwritten on assignment). -/
def proj (j : Job) : ℕ × ℚ := (j.id, j.duration)

/-- Bookkeeping invariant of one slot's job list, with running available
time `t`: each job starts at the current available time and ends
`duration` later. -/
def chainFrom : ℚ → List Job → Prop
  | _, [] => True
  | t, j :: js => j.start_time = t ∧ j.end_time = t + j.duration ∧ chainFrom j.end_time js

/-- All jobs stored across all slots of all workers. -/
def slotJobs (ws : List Worker) : List Job :=
  ws.flatMap fun w => w.threads.flatMap ThreadSlot.jobs

/-- The job record as `ThreadSlot.add_job` stores it: the four outcome
fields overwritten (`assigned_worker` ending at `-1` — see C3). -/
def assignedJob (t : ThreadSlot) (job : Job) : Job :=
  { job with
    assigned_worker := -1
    thread_id := (t.thread_id : ℤ)
    start_time := t.get_available_time
    end_time := t.get_available_time + job.duration }

/-- End time of the last job of a list, `c` when the list is empty
(`ThreadSlot.get_end_time` is this at `c = 0`). -/
def lastEndFrom (c : ℚ) (l : List Job) : ℚ :=
  match l.getLast? with
  | none => c
  | some j => j.end_time

/-- Flatten a timetable to the list of all its records. -/
def schedEntries (sch : Schedule) : List ScheduleEntry :=
  (sch.flatMap id).flatMap id

/-- The value `foldr max 0`: the maximum of a list of non-negative rationals (used
to reason about `pymax` under the invariant that all values are ≥ 0). -/
def foldMax (l : List ℚ) : ℚ := l.foldr max 0

/-- The end times of all slots, worker by worker and thread by thread. -/
def slotEnds (ws : List Worker) : List ℚ :=
  ws.flatMap fun w => w.threads.map ThreadSlot.get_end_time

/-- Shape of the worker pool built by `greedy_lpt` for a `(W, T)`
configuration: `W` workers in id order, each with `T` slots in id order. -/
def WorkersShape (W T : ℕ) (ws : List Worker) : Prop :=
  ws.length = W ∧
  ∀ i (w : Worker), ws[i]? = some w → w.id = i ∧ w.threads.length = T ∧
    ∀ j (t : ThreadSlot), w.threads[j]? = some t → t.thread_id = j

/-- Every slot of every worker satisfies the bookkeeping invariant from
time `0`. -/
def SlotsChain (ws : List Worker) : Prop :=
  ∀ w ∈ ws, ∀ t ∈ w.threads, chainFrom 0 t.jobs

/-- The spec's worker-selection key, written from the spec's words: the
worker's currently least-loaded thread slot's available time (the `0`
default is junk for a thread-less worker, which the spec's validity
assumptions exclude). -/
def leastSlotAvail (w : Worker) : ℚ :=
  match w.threads.map ThreadSlot.get_available_time with
  | [] => 0
  | x :: xs => xs.foldl min x

/-- Spec-side description of one assignment (§4.2 steps a-c of the spec):
the selected worker's least-loaded-slot available time is minimal across
all workers with the lowest index (= worker id) breaking ties; within it
the selected slot has minimal available time with the lowest index
(= thread id) breaking ties; the job starts at that slot's prior available
time, ends `duration` later, and is appended there, making the slot's
available time the job's end time. -/
def SpecAssign (ws : List Worker) (job : Job) (ws' : List Worker) (j' : Job) : Prop :=
  ∃ (wi : ℕ) (w : Worker) (ti : ℕ) (t : ThreadSlot),
    ws[wi]? = some w ∧ w.threads[ti]? = some t ∧
    w.id = wi ∧ t.thread_id = ti ∧
    (∀ (j : ℕ) (w2 : Worker), ws[j]? = some w2 →
      leastSlotAvail w ≤ leastSlotAvail w2) ∧
    (∀ (j : ℕ) (w2 : Worker), j < wi → ws[j]? = some w2 →
      leastSlotAvail w < leastSlotAvail w2) ∧
    (∀ (j : ℕ) (t2 : ThreadSlot), w.threads[j]? = some t2 →
      t.get_available_time ≤ t2.get_available_time) ∧
    (∀ (j : ℕ) (t2 : ThreadSlot), j < ti → w.threads[j]? = some t2 →
      t.get_available_time < t2.get_available_time) ∧
    j'.id = job.id ∧ j'.duration = job.duration ∧
    j'.start_time = t.get_available_time ∧
    j'.end_time = j'.start_time + job.duration ∧
    (ThreadSlot.mk t.thread_id (t.jobs ++ [j'])).get_available_time = j'.end_time ∧
    ws' = ws.set wi { w with threads := w.threads.set ti { t with jobs := t.jobs ++ [j'] } }

/-- Spec-side description of the whole assignment loop: each job of the
(sorted) list is placed by one `SpecAssign` step, and the updated job
records are collected in processing order. -/
def SpecRun : List Worker → List Job → List Worker → List Job → Prop
  | ws, [], ws', us => ws' = ws ∧ us = []
  | ws, job :: js, ws', us =>
    ∃ ws1 j1 us1, SpecAssign ws job ws1 j1 ∧ SpecRun ws1 js ws' us1 ∧ us = j1 :: us1

/-- The spec's sorting requirement, written from the spec's words: the
output is a permutation of the input, is descending in duration, and jobs
of equal duration keep their original relative order (stability). -/
def IsStableDescSort (input out : List Job) : Prop :=
  out.Perm input ∧
  out.Pairwise (fun a b => b.duration ≤ a.duration) ∧
  ∀ d : ℚ, out.filter (fun j => j.duration == d) = input.filter (fun j => j.duration == d)

/-! ## Basic lemmas about the embedded operations -/

theorem insertDesc_length (j : Job) (l : List Job) :
    (insertDesc j l).length = l.length + 1 := by
  induction l with
  | nil => rfl
  | cons x xs ih =>
    simp only [insertDesc]
    split
    · simp
    · simp [ih]

theorem sortJobsDesc_length (l : List Job) :
    (sortJobsDesc l).length = l.length := by
  suffices h : ∀ (acc : List Job),
      (l.foldl (fun acc j => insertDesc j acc) acc).length = acc.length + l.length by
    simpa using h []
  induction l with
  | nil => simp
  | cons x xs ih =>
    intro acc
    simp only [List.foldl_cons, ih, insertDesc_length, List.length_cons]
    omega

/-! ## Lemmas about `minBy` (Python's `min(…, key=…)`) -/

theorem minBy_eq_none_iff {α : Type} (f : α → ℚ) (l : List α) :
    minBy f l = none ↔ l = [] := by
  cases l with
  | nil => simp [minBy]
  | cons x xs =>
    cases h : minBy f xs with
    | none => simp [minBy, h]
    | some p =>
      obtain ⟨i, y⟩ := p
      by_cases hle : f x ≤ f y <;> simp [minBy, h, hle]

theorem minBy_getElem? {α : Type} (f : α → ℚ) :
    ∀ {l : List α} {i : ℕ} {x : α}, minBy f l = some (i, x) → l[i]? = some x := by
  intro l
  induction l with
  | nil => intro i x h; simp [minBy] at h
  | cons a as ih =>
    intro i x h
    cases hm : minBy f as with
    | none =>
      simp only [minBy, hm, Option.some.injEq, Prod.mk.injEq] at h
      obtain ⟨rfl, rfl⟩ := h
      simp
    | some p =>
      obtain ⟨i', y⟩ := p
      by_cases hle : f a ≤ f y
      · simp only [minBy, hm, if_pos hle, Option.some.injEq, Prod.mk.injEq] at h
        obtain ⟨rfl, rfl⟩ := h
        simp
      · simp only [minBy, hm, if_neg hle, Option.some.injEq, Prod.mk.injEq] at h
        obtain ⟨rfl, rfl⟩ := h
        simpa using ih hm

theorem minBy_le {α : Type} (f : α → ℚ) :
    ∀ {l : List α} {i : ℕ} {x : α}, minBy f l = some (i, x) →
      ∀ (j : ℕ) (y : α), l[j]? = some y → f x ≤ f y := by
  intro l
  induction l with
  | nil => intro i x h; simp [minBy] at h
  | cons a as ih =>
    intro i x h j y hj
    cases hm : minBy f as with
    | none =>
      simp only [minBy, hm, Option.some.injEq, Prod.mk.injEq] at h
      obtain ⟨rfl, rfl⟩ := h
      have has : as = [] := (minBy_eq_none_iff f as).mp hm
      subst has
      cases j with
      | zero => simp at hj; subst hj; exact le_refl _
      | succ j => simp at hj
    | some p =>
      obtain ⟨i', y'⟩ := p
      by_cases hle : f a ≤ f y'
      · simp only [minBy, hm, if_pos hle, Option.some.injEq, Prod.mk.injEq] at h
        obtain ⟨rfl, rfl⟩ := h
        cases j with
        | zero => simp at hj; subst hj; exact le_refl _
        | succ j =>
          simp only [List.getElem?_cons_succ] at hj
          exact le_trans hle (ih hm j y hj)
      · simp only [minBy, hm, if_neg hle, Option.some.injEq, Prod.mk.injEq] at h
        obtain ⟨rfl, rfl⟩ := h
        cases j with
        | zero =>
          simp at hj; subst hj
          exact le_of_lt (lt_of_not_le hle)
        | succ j =>
          simp only [List.getElem?_cons_succ] at hj
          exact ih hm j y hj

theorem minBy_first {α : Type} (f : α → ℚ) :
    ∀ {l : List α} {i : ℕ} {x : α}, minBy f l = some (i, x) →
      ∀ (j : ℕ) (y : α), j < i → l[j]? = some y → f x < f y := by
  intro l
  induction l with
  | nil => intro i x h; simp [minBy] at h
  | cons a as ih =>
    intro i x h j y hji hj
    cases hm : minBy f as with
    | none =>
      simp only [minBy, hm, Option.some.injEq, Prod.mk.injEq] at h
      obtain ⟨rfl, rfl⟩ := h
      exact absurd hji (Nat.not_lt_zero j)
    | some p =>
      obtain ⟨i', y'⟩ := p
      by_cases hle : f a ≤ f y'
      · simp only [minBy, hm, if_pos hle, Option.some.injEq, Prod.mk.injEq] at h
        obtain ⟨rfl, rfl⟩ := h
        exact absurd hji (Nat.not_lt_zero j)
      · simp only [minBy, hm, if_neg hle, Option.some.injEq, Prod.mk.injEq] at h
        obtain ⟨rfl, rfl⟩ := h
        cases j with
        | zero =>
          simp at hj; subst hj
          exact lt_of_not_le hle
        | succ j =>
          simp only [List.getElem?_cons_succ] at hj
          exact ih hm j y (Nat.lt_of_succ_lt_succ hji) hj

theorem minBy_mem {α : Type} (f : α → ℚ) {l : List α} {i : ℕ} {x : α}
    (h : minBy f l = some (i, x)) : x ∈ l :=
  List.getElem?_mem (minBy_getElem? f h)

theorem minBy_le_of_mem {α : Type} (f : α → ℚ) {l : List α} {i : ℕ} {x : α}
    (h : minBy f l = some (i, x)) : ∀ y ∈ l, f x ≤ f y := by
  intro y hy
  obtain ⟨j, hj⟩ := List.mem_iff_getElem?.mp hy
  exact minBy_le f h j y hj

theorem foldl_min_le_init : ∀ (l : List ℚ) (c : ℚ), l.foldl min c ≤ c := by
  intro l
  induction l with
  | nil => intro c; exact le_refl c
  | cons a as ih => intro c; exact le_trans (ih (min c a)) (min_le_left c a)

theorem foldl_min_le_mem : ∀ (l : List ℚ) (c x : ℚ), x ∈ l → l.foldl min c ≤ x := by
  intro l
  induction l with
  | nil => intro c x hx; simp at hx
  | cons a as ih =>
    intro c x hx
    rcases List.mem_cons.mp hx with rfl | hx
    · exact le_trans (foldl_min_le_init as (min c x)) (min_le_right c x)
    · exact ih (min c a) x hx

theorem le_foldl_min : ∀ (l : List ℚ) (c b : ℚ), b ≤ c → (∀ x ∈ l, b ≤ x) →
    b ≤ l.foldl min c := by
  intro l
  induction l with
  | nil => intro c b hc _; exact hc
  | cons a as ih =>
    intro c b hc hall
    exact ih (min c a) b (le_min hc (hall a (by simp)))
      (fun x hx => hall x (by simp [hx]))

/-! ## Lemmas about worker selection -/

theorem minBy_leastSlotAvail {w : Worker} {i : ℕ} {t : ThreadSlot}
    (hm : minBy ThreadSlot.get_available_time w.threads = some (i, t)) :
    leastSlotAvail w = t.get_available_time := by
  unfold leastSlotAvail
  cases hth : w.threads with
  | nil => rw [hth] at hm; simp [minBy] at hm
  | cons t0 ts =>
    rw [hth] at hm
    simp only [List.map_cons]
    apply le_antisymm
    · rcases List.mem_cons.mp (minBy_mem _ hm) with rfl | hmem
      · exact foldl_min_le_init _ _
      · exact foldl_min_le_mem _ _ _ (List.mem_map_of_mem _ hmem)
    · refine le_foldl_min _ _ _ (minBy_le_of_mem _ hm t0 (by simp)) ?_
      intro x hx
      obtain ⟨t2, ht2, rfl⟩ := List.mem_map.mp hx
      exact minBy_le_of_mem _ hm t2 (by simp [ht2])

theorem earliestAvail_of_threads_ne_nil {w : Worker} (h : w.threads ≠ []) :
    w.earliestAvail = some (leastSlotAvail w) := by
  unfold Worker.earliestAvail Worker.get_earliest_available_thread
  cases hm : minBy ThreadSlot.get_available_time w.threads with
  | none => exact absurd ((minBy_eq_none_iff _ _).mp hm) h
  | some p =>
    obtain ⟨i, t⟩ := p
    rw [minBy_leastSlotAvail hm]
    rfl

theorem selectWorker_cons (a : Worker) (ws : List Worker) :
    selectWorker (a :: ws) =
      match a.earliestAvail with
      | none => none
      | some k =>
        match ws with
        | [] => some (0, a, k)
        | _ :: _ =>
          match selectWorker ws with
          | none => none
          | some (i, w', k') =>
            if k ≤ k' then some (0, a, k) else some (i + 1, w', k') := rfl

theorem selectWorker_cons_of_none {a : Worker} (ws : List Worker)
    (ha : a.earliestAvail = none) : selectWorker (a :: ws) = none := by
  rw [selectWorker_cons, ha]

theorem selectWorker_singleton_of_some {a : Worker} {k : ℚ}
    (ha : a.earliestAvail = some k) : selectWorker [a] = some (0, a, k) := by
  rw [selectWorker_cons, ha]

theorem selectWorker_cons₂_of_none {a b : Worker} {bs : List Worker} {k : ℚ}
    (ha : a.earliestAvail = some k) (hs : selectWorker (b :: bs) = none) :
    selectWorker (a :: b :: bs) = none := by
  rw [selectWorker_cons, ha, hs]

theorem selectWorker_cons₂_of_some {a b : Worker} {bs : List Worker} {k k' : ℚ}
    {i : ℕ} {w' : Worker} (ha : a.earliestAvail = some k)
    (hs : selectWorker (b :: bs) = some (i, w', k')) :
    selectWorker (a :: b :: bs) =
      if k ≤ k' then some (0, a, k) else some (i + 1, w', k') := by
  rw [selectWorker_cons, ha, hs]

theorem selectWorker_spec :
    ∀ {ws : List Worker} {i : ℕ} {w : Worker} {k : ℚ},
      selectWorker ws = some (i, w, k) →
      ws[i]? = some w ∧ w.earliestAvail = some k ∧
      (∀ (j : ℕ) (w2 : Worker) (k2 : ℚ), ws[j]? = some w2 →
        w2.earliestAvail = some k2 → k ≤ k2) ∧
      (∀ (j : ℕ) (w2 : Worker) (k2 : ℚ), j < i → ws[j]? = some w2 →
        w2.earliestAvail = some k2 → k < k2) := by
  intro ws
  induction ws with
  | nil => intro i w k h; simp [selectWorker] at h
  | cons a as ih =>
    intro i w k h
    cases ha : a.earliestAvail with
    | none => rw [selectWorker_cons_of_none as ha] at h; exact Option.noConfusion h
    | some ka =>
      cases as with
      | nil =>
        rw [selectWorker_singleton_of_some ha] at h
        simp only [Option.some.injEq, Prod.mk.injEq] at h
        obtain ⟨rfl, rfl, rfl⟩ := h
        refine ⟨by simp, ha, ?_, ?_⟩
        · intro j w2 k2 hj hk2
          cases j with
          | zero =>
            simp at hj; subst hj
            rw [ha] at hk2
            cases hk2
            exact le_refl _
          | succ j => simp at hj
        · intro j w2 k2 hj _ _
          exact absurd hj (Nat.not_lt_zero j)
      | cons b bs =>
        cases hs : selectWorker (b :: bs) with
        | none =>
          rw [selectWorker_cons₂_of_none ha hs] at h
          exact Option.noConfusion h
        | some p =>
          obtain ⟨i', w', k'⟩ := p
          obtain ⟨hget', havail', hmin', hfirst'⟩ := ih hs
          rw [selectWorker_cons₂_of_some ha hs] at h
          by_cases hle : ka ≤ k'
          · rw [if_pos hle] at h
            simp only [Option.some.injEq, Prod.mk.injEq] at h
            obtain ⟨rfl, rfl, rfl⟩ := h
            refine ⟨by simp, ha, ?_, ?_⟩
            · intro j w2 k2 hj hk2
              cases j with
              | zero =>
                simp at hj; subst hj
                rw [ha] at hk2; cases hk2
                exact le_refl _
              | succ j =>
                simp only [List.getElem?_cons_succ] at hj
                exact le_trans hle (hmin' j w2 k2 hj hk2)
            · intro j w2 k2 hj _ _
              exact absurd hj (Nat.not_lt_zero j)
          · rw [if_neg hle] at h
            simp only [Option.some.injEq, Prod.mk.injEq] at h
            obtain ⟨rfl, rfl, rfl⟩ := h
            refine ⟨by simpa using hget', havail', ?_, ?_⟩
            · intro j w2 k2 hj hk2
              cases j with
              | zero =>
                simp at hj; subst hj
                rw [ha] at hk2; cases hk2
                exact le_of_lt (lt_of_not_le hle)
              | succ j =>
                simp only [List.getElem?_cons_succ] at hj
                exact hmin' j w2 k2 hj hk2
            · intro j w2 k2 hj hget hk2
              cases j with
              | zero =>
                simp at hget; subst hget
                rw [ha] at hk2; cases hk2
                exact lt_of_not_le hle
              | succ j =>
                simp only [List.getElem?_cons_succ] at hget
                exact hfirst' j w2 k2 (Nat.lt_of_succ_lt_succ hj) hget hk2

theorem selectWorker_total :
    ∀ {ws : List Worker}, ws ≠ [] → (∀ w ∈ ws, w.threads ≠ []) →
      ∃ i w k, selectWorker ws = some (i, w, k) := by
  intro ws
  induction ws with
  | nil => intro h; exact absurd rfl h
  | cons a as ih =>
    intro _ hth
    have ha : a.earliestAvail = some (leastSlotAvail a) :=
      earliestAvail_of_threads_ne_nil (hth a (by simp))
    cases as with
    | nil => exact ⟨0, a, leastSlotAvail a, selectWorker_singleton_of_some ha⟩
    | cons b bs =>
      obtain ⟨i', w', k', hs⟩ : ∃ i w k, selectWorker (b :: bs) = some (i, w, k) :=
        ih (by simp) (fun w hw => hth w (List.mem_cons_of_mem a hw))
      by_cases hle : leastSlotAvail a ≤ k'
      · exact ⟨0, a, leastSlotAvail a,
          by rw [selectWorker_cons₂_of_some ha hs, if_pos hle]⟩
      · exact ⟨i' + 1, w', k',
          by rw [selectWorker_cons₂_of_some ha hs, if_neg hle]⟩

/-! ## One assignment step -/

theorem assign_job_eq (w : Worker) (job : Job) {ti : ℕ} {t : ThreadSlot}
    (hm : minBy ThreadSlot.get_available_time w.threads = some (ti, t)) :
    w.assign_job job = some
      ({ w with threads := w.threads.set ti { t with jobs := t.jobs ++ [assignedJob t job] } },
        assignedJob t job) := by
  unfold Worker.assign_job Worker.get_earliest_available_thread
  rw [hm]
  rfl

theorem stepAssign_eq {ws : List Worker} (job : Job) {wi : ℕ} {w : Worker} {k : ℚ}
    (hsel : selectWorker ws = some (wi, w, k)) {ti : ℕ} {t : ThreadSlot}
    (hm : minBy ThreadSlot.get_available_time w.threads = some (ti, t)) :
    stepAssign ws job = some
      (ws.set wi { w with threads := w.threads.set ti { t with jobs := t.jobs ++ [assignedJob t job] } },
        assignedJob t job) := by
  simp only [stepAssign, hsel, assign_job_eq w job hm]

theorem getElem?_some_lt {α : Type} {l : List α} {i : ℕ} {a : α}
    (h : l[i]? = some a) : i < l.length := by
  by_contra hle
  rw [List.getElem?_eq_none (Nat.le_of_not_lt hle)] at h
  exact Option.noConfusion h

theorem WorkersShape.threads_ne_nil {W T : ℕ} {ws : List Worker}
    (h : WorkersShape W T ws) (hT : 1 ≤ T) : ∀ w ∈ ws, w.threads ≠ [] := by
  intro w hw
  obtain ⟨i, hi⟩ := List.mem_iff_getElem?.mp hw
  have hlen := (h.2 i w hi).2.1
  intro hnil
  rw [hnil] at hlen
  simp at hlen
  omega

theorem stepAssign_spec (W T : ℕ) (hW : 1 ≤ W) (hT : 1 ≤ T) {ws : List Worker}
    (hsh : WorkersShape W T ws) (job : Job) :
    ∃ ws' j', stepAssign ws job = some (ws', j') ∧ SpecAssign ws job ws' j' ∧
      WorkersShape W T ws' := by
  have hne : ws ≠ [] := by
    intro h
    rw [h] at hsh
    have h1 := hsh.1
    simp at h1
    omega
  have hthne := hsh.threads_ne_nil hT
  obtain ⟨wi, w, k, hsel⟩ := selectWorker_total hne hthne
  obtain ⟨hget, havail, hmin, hfirst⟩ := selectWorker_spec hsel
  have hwmem : w ∈ ws := List.getElem?_mem hget
  have hkval : leastSlotAvail w = k := by
    have h2 := earliestAvail_of_threads_ne_nil (hthne w hwmem)
    rw [havail] at h2
    exact (Option.some.inj h2).symm
  cases hm : minBy ThreadSlot.get_available_time w.threads with
  | none => exact absurd ((minBy_eq_none_iff _ _).mp hm) (hthne w hwmem)
  | some p =>
    obtain ⟨ti, t⟩ := p
    have htget : w.threads[ti]? = some t := minBy_getElem? _ hm
    have hwi_lt : wi < ws.length := getElem?_some_lt hget
    obtain ⟨hid, hthlen, htids⟩ := hsh.2 wi w hget
    refine ⟨_, _, stepAssign_eq job hsel hm, ?_, ?_⟩
    · refine ⟨wi, w, ti, t, hget, htget, hid, htids ti t htget,
        ?_, ?_, ?_, ?_, rfl, rfl, rfl, rfl, ?_, rfl⟩
      · intro j w2 hj
        have hw2mem : w2 ∈ ws := List.getElem?_mem hj
        have h2 := earliestAvail_of_threads_ne_nil (hthne w2 hw2mem)
        have h3 := hmin j w2 (leastSlotAvail w2) hj h2
        rw [hkval]
        exact h3
      · intro j w2 hjlt hj
        have hw2mem : w2 ∈ ws := List.getElem?_mem hj
        have h2 := earliestAvail_of_threads_ne_nil (hthne w2 hw2mem)
        have h3 := hfirst j w2 (leastSlotAvail w2) hjlt hj h2
        rw [hkval]
        exact h3
      · intro j t2 hj
        exact minBy_le _ hm j t2 hj
      · intro j t2 hjlt hj
        exact minBy_first _ hm j t2 hjlt hj
      · show ThreadSlot.get_available_time _ = _
        unfold ThreadSlot.get_available_time ThreadSlot.get_end_time
        rw [List.getLast?_concat]
    · constructor
      · rw [List.length_set]
        exact hsh.1
      · intro i w2 hi
        by_cases hiw : i = wi
        · subst hiw
          rw [List.getElem?_set_self hwi_lt] at hi
          obtain rfl := (Option.some.inj hi).symm
          refine ⟨hid, ?_, ?_⟩
          · simp only [List.length_set]
            exact hthlen
          · intro j t2 hj
            by_cases hjt : j = ti
            · rw [hjt] at hj
              have hti_lt : ti < w.threads.length := getElem?_some_lt htget
              rw [List.getElem?_set_self hti_lt] at hj
              obtain rfl := (Option.some.inj hj).symm
              rw [hjt]
              exact htids ti t htget
            · simp only [List.getElem?_set_ne (fun h => hjt h.symm)] at hj
              exact htids j t2 hj
        · rw [List.getElem?_set_ne (fun h => hiw h.symm)] at hi
          exact hsh.2 i w2 hi

/-! ## The whole assignment loop -/

theorem getElem?_range_some {n i v : ℕ} (h : (List.range n)[i]? = some v) : v = i := by
  have hlt : i < n := by
    by_contra hge
    rw [List.getElem?_eq_none (by simpa using Nat.le_of_not_lt hge)] at h
    exact Option.noConfusion h
  rw [List.getElem?_range hlt] at h
  exact (Option.some.inj h).symm

theorem workersShape_make (W T : ℕ) :
    WorkersShape W T ((List.range W).map fun i => Worker.make i T) := by
  constructor
  · simp
  · intro i w hi
    rw [List.getElem?_map] at hi
    cases hr : (List.range W)[i]? with
    | none => rw [hr] at hi; exact Option.noConfusion hi
    | some v =>
      rw [hr] at hi
      obtain rfl := getElem?_range_some hr
      simp only [Option.map_some'] at hi
      obtain rfl := (Option.some.inj hi).symm
      refine ⟨rfl, by simp [Worker.make], ?_⟩
      intro j t hj
      simp only [Worker.make, List.getElem?_map] at hj
      cases hs : (List.range T)[j]? with
      | none => rw [hs] at hj; exact Option.noConfusion hj
      | some u =>
        rw [hs] at hj
        obtain rfl := getElem?_range_some hs
        simp only [Option.map_some'] at hj
        obtain rfl := (Option.some.inj hj).symm
        rfl

theorem runJobs_spec (W T : ℕ) (hW : 1 ≤ W) (hT : 1 ≤ T) :
    ∀ (js : List Job) (ws : List Worker), WorkersShape W T ws →
      ∃ ws' us, runJobs ws js = some (ws', us) ∧ SpecRun ws js ws' us ∧
        WorkersShape W T ws' := by
  intro js
  induction js with
  | nil =>
    intro ws hsh
    exact ⟨ws, [], rfl, ⟨rfl, rfl⟩, hsh⟩
  | cons j js ih =>
    intro ws hsh
    obtain ⟨ws1, j1, hstep, hspec, hsh1⟩ := stepAssign_spec W T hW hT hsh j
    obtain ⟨ws2, us, hrun, hsrun, hsh2⟩ := ih ws1 hsh1
    refine ⟨ws2, j1 :: us, ?_, ⟨ws1, j1, us, hspec, hsrun, rfl⟩, hsh2⟩
    simp only [runJobs, hstep, hrun]

/-! ## The slot bookkeeping invariant -/

theorem lastEndFrom_cons (c : ℚ) (x : Job) (xs : List Job) :
    lastEndFrom c (x :: xs) = lastEndFrom x.end_time xs := by
  cases xs with
  | nil => rfl
  | cons y ys =>
    cases hl : (y :: ys).getLast? with
    | none => simp at hl
    | some j => simp [lastEndFrom, List.getLast?_cons_cons, hl]

theorem get_available_time_eq_lastEndFrom (t : ThreadSlot) :
    t.get_available_time = lastEndFrom 0 t.jobs := rfl

theorem chainFrom_append : ∀ (l : List Job) (c : ℚ), chainFrom c l →
    ∀ j : Job, j.start_time = lastEndFrom c l →
      j.end_time = j.start_time + j.duration → chainFrom c (l ++ [j]) := by
  intro l
  induction l with
  | nil =>
    intro c _ j hstart hend
    refine ⟨by simpa [lastEndFrom] using hstart, ?_, trivial⟩
    rw [hend, hstart]
    simp [lastEndFrom]
  | cons x xs ih =>
    intro c hc j hstart hend
    obtain ⟨h1, h2, h3⟩ := hc
    exact ⟨h1, h2, ih x.end_time h3 j (hstart.trans (lastEndFrom_cons c x xs)) hend⟩

theorem chainFrom_lastEnd : ∀ (l : List Job) (c : ℚ), chainFrom c l →
    lastEndFrom c l = c + (l.map Job.duration).sum := by
  intro l
  induction l with
  | nil => intro c _; simp [lastEndFrom]
  | cons x xs ih =>
    intro c hc
    obtain ⟨_, h2, h3⟩ := hc
    rw [lastEndFrom_cons, ih x.end_time h3, h2]
    simp only [List.map_cons, List.sum_cons]
    ring

theorem chainFrom_end_bounds : ∀ (l : List Job) (c : ℚ), chainFrom c l →
    (∀ j ∈ l, 0 ≤ j.duration) →
    ∀ j ∈ l, c ≤ j.end_time ∧ j.end_time ≤ lastEndFrom c l := by
  intro l
  induction l with
  | nil => intro c _ _ j hj; simp at hj
  | cons x xs ih =>
    intro c hc hd j hj
    obtain ⟨h1, h2, h3⟩ := hc
    have hxend : c ≤ x.end_time := by
      rw [h2]
      have := hd x (by simp)
      linarith
    rcases List.mem_cons.mp hj with rfl | hj
    · refine ⟨hxend, ?_⟩
      rw [lastEndFrom_cons, chainFrom_lastEnd xs j.end_time h3]
      have : 0 ≤ (xs.map Job.duration).sum :=
        List.sum_nonneg (by
          intro q hq
          obtain ⟨j2, hj2, rfl⟩ := List.mem_map.mp hq
          exact hd j2 (by simp [hj2]))
      linarith
    · have := ih x.end_time h3 (fun j2 hj2 => hd j2 (by simp [hj2])) j hj
      exact ⟨le_trans hxend this.1, by rw [lastEndFrom_cons]; exact this.2⟩

theorem chainFrom_chain' : ∀ (l : List Job) (c : ℚ), chainFrom c l →
    List.Chain' (fun a b => a.end_time ≤ b.start_time) l := by
  intro l
  induction l with
  | nil => intro c _; exact List.chain'_nil
  | cons x xs ih =>
    intro c hc
    obtain ⟨_, _, h3⟩ := hc
    cases xs with
    | nil => simp
    | cons y ys =>
      rw [List.chain'_cons]
      obtain ⟨hy1, h4, h5⟩ := h3
      exact ⟨le_of_eq hy1.symm, ih x.end_time ⟨hy1, h4, h5⟩⟩

theorem SpecAssign_slotsChain {ws : List Worker} {job : Job} {ws' : List Worker}
    {j' : Job} (h : SpecAssign ws job ws' j') (hc : SlotsChain ws) :
    SlotsChain ws' := by
  obtain ⟨wi, w, ti, t, hget, htget, _, _, _, _, _, _, _, hjdur, hjstart, hjend, _,
    hws'⟩ := h
  subst hws'
  intro w2 hw2
  rcases List.mem_or_eq_of_mem_set hw2 with hw2 | rfl
  · exact hc w2 hw2
  · intro t2 ht2
    rcases List.mem_or_eq_of_mem_set ht2 with ht2 | rfl
    · exact hc w (List.getElem?_mem hget) t2 ht2
    · show chainFrom 0 (t.jobs ++ [j'])
      apply chainFrom_append t.jobs 0
        (hc w (List.getElem?_mem hget) t (List.getElem?_mem htget)) j'
      · rw [hjstart]; rfl
      · rw [hjend, hjdur]

theorem SpecRun_slotsChain : ∀ {js : List Job} {ws ws' : List Worker} {us : List Job},
    SpecRun ws js ws' us → SlotsChain ws → SlotsChain ws' := by
  intro js
  induction js with
  | nil =>
    intro ws ws' us h hc
    obtain ⟨h1, _⟩ := h
    subst h1
    exact hc
  | cons j js ih =>
    intro ws ws' us h hc
    obtain ⟨ws1, j1, us1, hsa, hsr, rfl⟩ := h
    exact ih hsr (SpecAssign_slotsChain hsa hc)

/-! ## Conservation of jobs -/

theorem flatMap_set_split {α β : Type} (f : α → List β) :
    ∀ (l : List α) (i : ℕ) (b : α), l[i]? = some b → ∀ a : α,
      ∃ pre post, l.flatMap f = pre ++ (f b ++ post) ∧
        (l.set i a).flatMap f = pre ++ (f a ++ post) := by
  intro l
  induction l with
  | nil => intro i b h a; simp at h
  | cons x xs ih =>
    intro i b h a
    cases i with
    | zero =>
      simp only [List.getElem?_cons_zero, Option.some.injEq] at h
      subst h
      exact ⟨[], xs.flatMap f, by simp, by simp⟩
    | succ i =>
      simp only [List.getElem?_cons_succ] at h
      obtain ⟨pre, post, h1, h2⟩ := ih i b h a
      refine ⟨f x ++ pre, post, ?_, ?_⟩
      · rw [List.flatMap_cons, h1, List.append_assoc]
      · rw [List.set_cons_succ, List.flatMap_cons, h2, List.append_assoc]

theorem SpecAssign_slotJobs_perm {ws : List Worker} {job : Job} {ws' : List Worker}
    {j' : Job} (h : SpecAssign ws job ws' j') :
    (slotJobs ws').Perm (j' :: slotJobs ws) := by
  obtain ⟨wi, w, ti, t, hget, htget, _, _, _, _, _, _, _, _, _, _, _, hws'⟩ := h
  subst hws'
  obtain ⟨p2, q2, hw1, hw2⟩ := flatMap_set_split ThreadSlot.jobs w.threads ti t htget
    { t with jobs := t.jobs ++ [j'] }
  obtain ⟨pre, post, h1, h2⟩ := flatMap_set_split
    (fun w => w.threads.flatMap ThreadSlot.jobs) ws wi w hget
    { w with threads := w.threads.set ti { t with jobs := t.jobs ++ [j'] } }
  show ((ws.set wi _).flatMap fun w => w.threads.flatMap ThreadSlot.jobs).Perm
    (j' :: ws.flatMap fun w => w.threads.flatMap ThreadSlot.jobs)
  rw [h2, h1]
  simp only [hw2, hw1]
  simp only [List.append_assoc, List.cons_append, List.singleton_append]
  have hp := @List.perm_middle _ j' (pre ++ (p2 ++ t.jobs)) (q2 ++ post)
  simp only [List.append_assoc, List.cons_append, List.singleton_append] at hp
  exact hp

theorem SpecRun_slotJobs_perm : ∀ {js : List Job} {ws ws' : List Worker}
    {us : List Job}, SpecRun ws js ws' us →
    (slotJobs ws').Perm (us ++ slotJobs ws) := by
  intro js
  induction js with
  | nil =>
    intro ws ws' us h
    obtain ⟨h1, h2⟩ := h
    subst h1; subst h2
    simp
  | cons j js ih =>
    intro ws ws' us h
    obtain ⟨ws1, j1, us1, hsa, hsr, rfl⟩ := h
    refine (ih hsr).trans ?_
    refine (List.Perm.append_left us1 (SpecAssign_slotJobs_perm hsa)).trans ?_
    exact @List.perm_middle _ j1 us1 (slotJobs ws)

theorem SpecRun_us_proj : ∀ {js : List Job} {ws ws' : List Worker} {us : List Job},
    SpecRun ws js ws' us → us.map proj = js.map proj := by
  intro js
  induction js with
  | nil =>
    intro ws ws' us h
    obtain ⟨_, h2⟩ := h
    subst h2
    rfl
  | cons j js ih =>
    intro ws ws' us h
    obtain ⟨ws1, j1, us1, hsa, hsr, rfl⟩ := h
    obtain ⟨_, _, _, _, _, _, _, _, _, _, _, _, hjid, hjdur, _, _, _, _⟩ := hsa
    simp only [List.map_cons, ih hsr]
    unfold proj
    rw [hjid, hjdur]

/-! ## The stable descending sort -/

theorem insertDesc_perm (j : Job) (l : List Job) : (insertDesc j l).Perm (j :: l) := by
  induction l with
  | nil => exact List.Perm.refl _
  | cons x xs ih =>
    simp only [insertDesc]
    split
    · exact List.Perm.refl _
    · exact (List.Perm.cons x ih).trans (List.Perm.swap j x xs)

theorem sortJobsDesc_perm (l : List Job) : (sortJobsDesc l).Perm l := by
  suffices h : ∀ acc : List Job,
      (l.foldl (fun acc j => insertDesc j acc) acc).Perm (l ++ acc) by
    simpa using h []
  induction l with
  | nil => intro acc; simp
  | cons x xs ih =>
    intro acc
    simp only [List.foldl_cons]
    refine (ih (insertDesc x acc)).trans ?_
    refine (List.Perm.append_left xs (insertDesc_perm x acc)).trans ?_
    exact @List.perm_middle _ x xs acc

theorem insertDesc_sorted {l : List Job}
    (hs : l.Pairwise (fun a b => b.duration ≤ a.duration)) (j : Job) :
    (insertDesc j l).Pairwise (fun a b => b.duration ≤ a.duration) := by
  induction l with
  | nil => simp [insertDesc]
  | cons x xs ih =>
    rw [List.pairwise_cons] at hs
    obtain ⟨hx, hxs⟩ := hs
    by_cases h : x.duration < j.duration
    · simp only [insertDesc, if_pos h]
      rw [List.pairwise_cons]
      refine ⟨?_, ?_⟩
      · intro b hb
        rcases List.mem_cons.mp hb with rfl | hb
        · exact le_of_lt h
        · exact le_trans (hx b hb) (le_of_lt h)
      · rw [List.pairwise_cons]
        exact ⟨hx, hxs⟩
    · simp only [insertDesc, if_neg h]
      rw [List.pairwise_cons]
      refine ⟨?_, ih hxs⟩
      intro b hb
      have hmem := (insertDesc_perm j xs).mem_iff.mp hb
      rcases List.mem_cons.mp hmem with rfl | hb2
      · exact le_of_not_lt h
      · exact hx b hb2

theorem sortJobsDesc_sorted (l : List Job) :
    (sortJobsDesc l).Pairwise (fun a b => b.duration ≤ a.duration) := by
  suffices h : ∀ acc : List Job, acc.Pairwise (fun a b => b.duration ≤ a.duration) →
      (l.foldl (fun acc j => insertDesc j acc) acc).Pairwise
        (fun a b => b.duration ≤ a.duration) by
    exact h [] (by simp)
  induction l with
  | nil => intro acc hacc; simpa using hacc
  | cons x xs ih =>
    intro acc hacc
    simp only [List.foldl_cons]
    exact ih _ (insertDesc_sorted hacc x)

theorem filter_insertDesc (q : ℚ) : ∀ {acc : List Job},
    acc.Pairwise (fun a b => b.duration ≤ a.duration) → ∀ j : Job,
    (insertDesc j acc).filter (fun x => x.duration == q) =
      if j.duration == q
      then acc.filter (fun x => x.duration == q) ++ [j]
      else acc.filter (fun x => x.duration == q) := by
  intro acc
  induction acc with
  | nil =>
    intro _ j
    simp only [insertDesc, List.filter_cons, List.filter_nil]
    by_cases hj : j.duration = q
    · rw [if_pos (by simp [hj]), if_pos (by simp [hj])]
      simp
    · rw [if_neg (by simp [hj]), if_neg (by simp [hj])]
  | cons x xs ih =>
    intro hs j
    rw [List.pairwise_cons] at hs
    obtain ⟨hx, hxs⟩ := hs
    by_cases h : x.duration < j.duration
    · simp only [insertDesc, if_pos h]
      by_cases hj : j.duration = q
      · have hempty : (x :: xs).filter (fun y => y.duration == q) = [] := by
          rw [List.filter_eq_nil_iff]
          intro a ha
          rcases List.mem_cons.mp ha with rfl | ha2
          · simp only [beq_iff_eq]
            rw [← hj]
            exact ne_of_lt h
          · simp only [beq_iff_eq]
            rw [← hj]
            exact ne_of_lt (lt_of_le_of_lt (hx a ha2) h)
        rw [List.filter_cons_of_pos (by simp [hj]), hempty, if_pos (by simp [hj])]
        rfl
      · rw [List.filter_cons_of_neg (by simp [hj]), if_neg (by simp [hj])]
    · simp only [insertDesc, if_neg h]
      rw [List.filter_cons, ih hxs j, List.filter_cons]
      by_cases hx2 : x.duration = q <;> by_cases hj : j.duration = q <;>
        simp [hx2, hj]

theorem sortJobsDesc_stable (l : List Job) (q : ℚ) :
    (sortJobsDesc l).filter (fun x => x.duration == q) =
      l.filter (fun x => x.duration == q) := by
  suffices h : ∀ acc : List Job, acc.Pairwise (fun a b => b.duration ≤ a.duration) →
      (l.foldl (fun acc j => insertDesc j acc) acc).filter (fun x => x.duration == q)
        = acc.filter (fun x => x.duration == q) ++ l.filter (fun x => x.duration == q) by
    simpa using h [] (by simp)
  induction l with
  | nil => intro acc _; simp
  | cons x xs ih =>
    intro acc hacc
    simp only [List.foldl_cons]
    rw [ih _ (insertDesc_sorted hacc x), filter_insertDesc q hacc x, List.filter_cons]
    by_cases hx : x.duration = q <;> simp [hx]

theorem sortJobsDesc_isStableDescSort (l : List Job) :
    IsStableDescSort l (sortJobsDesc l) :=
  ⟨sortJobsDesc_perm l, sortJobsDesc_sorted l, fun q => sortJobsDesc_stable l q⟩

/-! ## The initial worker pool and `greedy_lpt` assembled -/

theorem flatMap_nil_of_forall {α β : Type} (f : α → List β) :
    ∀ l : List α, (∀ x ∈ l, f x = []) → l.flatMap f = [] := by
  intro l
  induction l with
  | nil => intro _; rfl
  | cons x xs ih =>
    intro h
    rw [List.flatMap_cons, h x (by simp), ih (fun y hy => h y (by simp [hy]))]
    rfl

theorem slotJobs_make (W T : ℕ) :
    slotJobs ((List.range W).map fun i => Worker.make i T) = [] := by
  apply flatMap_nil_of_forall
  intro w hw
  obtain ⟨i, _, rfl⟩ := List.mem_map.mp hw
  apply flatMap_nil_of_forall
  intro t ht
  simp only [Worker.make] at ht
  obtain ⟨j, _, rfl⟩ := List.mem_map.mp ht
  rfl

theorem slotsChain_make (W T : ℕ) :
    SlotsChain ((List.range W).map fun i => Worker.make i T) := by
  intro w hw
  obtain ⟨i, _, rfl⟩ := List.mem_map.mp hw
  intro t ht
  simp only [Worker.make] at ht
  obtain ⟨j, _, rfl⟩ := List.mem_map.mp ht
  trivial

theorem greedy_lpt_eq {s : ThreadPoolScheduler} {ws' : List Worker} {us : List Job}
    (hrun : runJobs ((List.range s.num_workers).map fun i =>
        Worker.make i s.threads_per_worker) (sortJobsDesc s.jobs) = some (ws', us)) :
    s.greedy_lpt = some (pymax (ws'.map Worker.get_total_end_time) 0,
      build_schedule ws', postJobs s.jobs us) := by
  simp only [ThreadPoolScheduler.greedy_lpt, hrun]

/-- Everything the universal claims need about one run of `greedy_lpt` on a
freshly constructed scheduler. -/
theorem greedy_lpt_run (W T : ℕ) (hW : 1 ≤ W) (hT : 1 ≤ T) (d : List ℚ) :
    ∃ ws' us,
      runJobs ((List.range W).map fun i => Worker.make i T)
        (sortJobsDesc (ThreadPoolScheduler.init W T d).jobs) = some (ws', us) ∧
      SpecRun ((List.range W).map fun i => Worker.make i T)
        (sortJobsDesc (ThreadPoolScheduler.init W T d).jobs) ws' us ∧
      WorkersShape W T ws' ∧ SlotsChain ws' ∧
      (slotJobs ws').Perm us ∧
      us.map proj = (sortJobsDesc (ThreadPoolScheduler.init W T d).jobs).map proj ∧
      (ThreadPoolScheduler.init W T d).greedy_lpt =
        some (pymax (ws'.map Worker.get_total_end_time) 0, build_schedule ws',
          postJobs (ThreadPoolScheduler.init W T d).jobs us) := by
  obtain ⟨ws', us, hrun, hsrun, hsh⟩ :=
    runJobs_spec W T hW hT (sortJobsDesc (ThreadPoolScheduler.init W T d).jobs)
      ((List.range W).map fun i => Worker.make i T) (workersShape_make W T)
  refine ⟨ws', us, hrun, hsrun, hsh,
    SpecRun_slotsChain hsrun (slotsChain_make W T), ?_,
    SpecRun_us_proj hsrun, greedy_lpt_eq hrun⟩
  have hp := SpecRun_slotJobs_perm hsrun
  rwa [slotJobs_make, List.append_nil] at hp

theorem flatMap_id_map {α β : Type} (f : α → List β) :
    ∀ l : List α, (l.map f).flatMap id = l.flatMap f := by
  intro l
  induction l with
  | nil => rfl
  | cons x xs ih =>
    simp only [List.map_cons, List.flatMap_cons, id]
    rw [ih]

theorem map_flatMap' {α β γ : Type} (g : β → γ) (f : α → List β) :
    ∀ l : List α, ((l.flatMap f).map g) = l.flatMap fun x => (f x).map g := by
  intro l
  induction l with
  | nil => rfl
  | cons x xs ih =>
    simp only [List.flatMap_cons, List.map_append]
    rw [ih]

theorem flatMap_flatMap {α β γ : Type} (f : α → List β) (g : β → List γ) :
    ∀ l : List α, (l.flatMap f).flatMap g = l.flatMap fun x => (f x).flatMap g := by
  intro l
  induction l with
  | nil => rfl
  | cons x xs ih =>
    simp only [List.flatMap_cons, List.flatMap_append]
    rw [ih]

/-- The flattened timetable is the image of the stored jobs. -/
theorem schedEntries_build (ws : List Worker) :
    schedEntries (build_schedule ws) = (slotJobs ws).map fun j =>
      (⟨j.id, j.duration, j.start_time, j.end_time⟩ : ScheduleEntry) := by
  unfold schedEntries build_schedule slotJobs
  simp only [flatMap_id_map, flatMap_flatMap, map_flatMap']

/-! ## Maxima and sums -/

theorem le_foldl_max_init : ∀ (l : List ℚ) (c : ℚ), c ≤ l.foldl max c := by
  intro l
  induction l with
  | nil => intro c; exact le_refl c
  | cons a as ih => intro c; exact le_trans (le_max_left c a) (ih (max c a))

theorem le_foldl_max_mem : ∀ (l : List ℚ) (c x : ℚ), x ∈ l → x ≤ l.foldl max c := by
  intro l
  induction l with
  | nil => intro c x hx; simp at hx
  | cons a as ih =>
    intro c x hx
    rcases List.mem_cons.mp hx with rfl | hx
    · exact le_trans (le_max_right c x) (le_foldl_max_init as (max c x))
    · exact ih (max c a) x hx

theorem le_pymax_of_mem {l : List ℚ} {x : ℚ} (hx : x ∈ l) (q : ℚ) :
    x ≤ pymax l q := by
  cases l with
  | nil => simp at hx
  | cons a as =>
    show x ≤ as.foldl max a
    rcases List.mem_cons.mp hx with rfl | hx2
    · exact le_foldl_max_init as x
    · exact le_foldl_max_mem as a x hx2

theorem foldMax_nonneg : ∀ l : List ℚ, 0 ≤ foldMax l := by
  intro l
  induction l with
  | nil => exact le_refl 0
  | cons x xs ih =>
    show 0 ≤ max x (foldMax xs)
    exact le_trans ih (le_max_right x _)

theorem le_foldMax_of_mem : ∀ {l : List ℚ} {x : ℚ}, x ∈ l → x ≤ foldMax l := by
  intro l
  induction l with
  | nil => intro x hx; simp at hx
  | cons a as ih =>
    intro x hx
    show x ≤ max a (foldMax as)
    rcases List.mem_cons.mp hx with rfl | hx2
    · exact le_max_left x _
    · exact le_trans (ih hx2) (le_max_right a _)

theorem foldMax_le : ∀ {l : List ℚ} {b : ℚ}, (∀ x ∈ l, x ≤ b) → 0 ≤ b →
    foldMax l ≤ b := by
  intro l
  induction l with
  | nil => intro b _ hb; exact hb
  | cons a as ih =>
    intro b h hb
    show max a (foldMax as) ≤ b
    exact max_le (h a (by simp)) (ih (fun x hx => h x (by simp [hx])) hb)

theorem foldMax_append : ∀ (a b : List ℚ), foldMax (a ++ b) = max (foldMax a) (foldMax b) := by
  intro a b
  induction a with
  | nil =>
    rw [List.nil_append]
    exact (max_eq_right (foldMax_nonneg b)).symm
  | cons x xs ih =>
    show max x (foldMax (xs ++ b)) = max (max x (foldMax xs)) (foldMax b)
    rw [ih, max_assoc]

theorem foldl_max_eq : ∀ (l : List ℚ) (c : ℚ), 0 ≤ c →
    l.foldl max c = max c (foldMax l) := by
  intro l
  induction l with
  | nil =>
    intro c hc
    show c = max c (foldMax [])
    exact (max_eq_left hc).symm
  | cons y ys ih =>
    intro c hc
    show ys.foldl max (max c y) = max c (foldMax (y :: ys))
    rw [ih (max c y) (le_trans hc (le_max_left c y))]
    show max (max c y) (foldMax ys) = max c (max y (foldMax ys))
    rw [max_assoc]

theorem pymax_eq_foldMax : ∀ {l : List ℚ}, (∀ x ∈ l, 0 ≤ x) →
    pymax l 0 = foldMax l := by
  intro l h
  cases l with
  | nil => rfl
  | cons a as =>
    show as.foldl max a = foldMax (a :: as)
    rw [foldl_max_eq as a (h a (by simp))]
    rfl

theorem foldMax_map_foldMax {α : Type} (f : α → List ℚ) :
    ∀ l : List α, foldMax (l.map fun x => foldMax (f x)) = foldMax (l.flatMap f) := by
  intro l
  induction l with
  | nil => rfl
  | cons x xs ih =>
    show max (foldMax (f x)) (foldMax (xs.map fun x => foldMax (f x)))
      = foldMax (f x ++ xs.flatMap f)
    rw [ih, foldMax_append]

theorem sum_flatMapQ {α : Type} (h : α → List ℚ) :
    ∀ l : List α, (l.flatMap h).sum = (l.map fun x => (h x).sum).sum := by
  intro l
  induction l with
  | nil => rfl
  | cons x xs ih =>
    simp only [List.flatMap_cons, List.sum_append, List.map_cons, List.sum_cons]
    rw [ih]

theorem sum_map_constN {α : Type} (n : ℕ) :
    ∀ l : List α, (l.map fun _ => n).sum = l.length * n := by
  intro l
  induction l with
  | nil => simp
  | cons x xs ih =>
    simp only [List.map_cons, List.sum_cons, ih, List.length_cons]
    ring

theorem sum_zero_of_nonneg : ∀ {l : List ℚ}, (∀ x ∈ l, 0 ≤ x) → l.sum = 0 →
    ∀ x ∈ l, x = 0 := by
  intro l
  induction l with
  | nil => intro _ _ x hx; simp at hx
  | cons a as ih =>
    intro hn hs x hx
    have has : 0 ≤ as.sum := List.sum_nonneg (fun y hy => hn y (by simp [hy]))
    have h1 : a + as.sum = 0 := by simpa using hs
    have h2 : 0 ≤ a := hn a (by simp)
    rcases List.mem_cons.mp hx with rfl | hx2
    · linarith
    · exact ih (fun y hy => hn y (by simp [hy])) (by linarith) x hx2

/-! ## What one run stores across the slots -/

theorem mem_slotJobs_of_mem {ws : List Worker} {w : Worker} {t : ThreadSlot}
    {j : Job} (hw : w ∈ ws) (ht : t ∈ w.threads) (hj : j ∈ t.jobs) :
    j ∈ slotJobs ws := by
  unfold slotJobs
  rw [List.mem_flatMap]
  refine ⟨w, hw, ?_⟩
  rw [List.mem_flatMap]
  exact ⟨t, ht, hj⟩

theorem stored_duration_mem {W T : ℕ} {d : List ℚ} {ws' : List Worker}
    {us : List Job} (hperm : (slotJobs ws').Perm us)
    (husproj : us.map proj
      = (sortJobsDesc (ThreadPoolScheduler.init W T d).jobs).map proj) :
    ∀ j ∈ slotJobs ws', j.duration ∈ d := by
  intro j hj
  have hju : j ∈ us := hperm.mem_iff.mp hj
  have hmem : proj j ∈ us.map proj := List.mem_map_of_mem proj hju
  rw [husproj] at hmem
  obtain ⟨j2, hj2, hpe⟩ := List.mem_map.mp hmem
  have hj2' : j2 ∈ (ThreadPoolScheduler.init W T d).jobs :=
    (sortJobsDesc_perm _).mem_iff.mp hj2
  simp only [ThreadPoolScheduler.init] at hj2'
  obtain ⟨p, hp, rfl⟩ := List.mem_map.mp hj2'
  have hdd : j.duration = p.2 := by
    have h2 := congrArg Prod.snd hpe
    simpa [proj, Job.fresh] using h2.symm
  rw [hdd]
  have hsnd : p.2 ∈ d.enum.map Prod.snd := List.mem_map_of_mem Prod.snd hp
  rwa [List.enum_map_snd] at hsnd

theorem slot_sum_eq_end {t : ThreadSlot} (hc : chainFrom 0 t.jobs) :
    (t.jobs.map Job.duration).sum = t.get_end_time := by
  have h := chainFrom_lastEnd t.jobs 0 hc
  rw [zero_add] at h
  exact h.symm

theorem slotEnds_sum {ws : List Worker} (hc : SlotsChain ws) :
    ((slotJobs ws).map Job.duration).sum = (slotEnds ws).sum := by
  unfold slotJobs slotEnds
  rw [map_flatMap', sum_flatMapQ, sum_flatMapQ]
  apply congrArg
  apply List.map_congr_left
  intro w hw
  rw [map_flatMap', sum_flatMapQ]
  apply congrArg
  apply List.map_congr_left
  intro t ht
  exact slot_sum_eq_end (hc w hw t ht)

theorem stored_total_sum {W T : ℕ} {d : List ℚ} {ws' : List Worker}
    {us : List Job} (hperm : (slotJobs ws').Perm us)
    (husproj : us.map proj
      = (sortJobsDesc (ThreadPoolScheduler.init W T d).jobs).map proj) :
    ((slotJobs ws').map Job.duration).sum = d.sum := by
  have h1 : ((slotJobs ws').map Job.duration).sum = (us.map Job.duration).sum :=
    (hperm.map Job.duration).sum_eq
  have h2 : us.map Job.duration
      = (sortJobsDesc (ThreadPoolScheduler.init W T d).jobs).map Job.duration := by
    have e1 : us.map Job.duration = (us.map proj).map Prod.snd := by
      rw [List.map_map]; rfl
    have e2 : ((sortJobsDesc (ThreadPoolScheduler.init W T d).jobs).map proj).map
          Prod.snd
        = (sortJobsDesc (ThreadPoolScheduler.init W T d).jobs).map Job.duration := by
      rw [List.map_map]; rfl
    rw [e1, husproj, e2]
  have h3 : ((sortJobsDesc (ThreadPoolScheduler.init W T d).jobs).map
        Job.duration).sum
      = ((ThreadPoolScheduler.init W T d).jobs.map Job.duration).sum :=
    ((sortJobsDesc_perm _).map Job.duration).sum_eq
  have h4 : (ThreadPoolScheduler.init W T d).jobs.map Job.duration = d := by
    show ((d.enum.map fun p => Job.fresh p.1 p.2).map Job.duration) = _
    rw [List.map_map]
    have hcomp : (Job.duration ∘ fun p : ℕ × ℚ => Job.fresh p.1 p.2) = Prod.snd := rfl
    rw [hcomp, List.enum_map_snd]
  rw [h1, h2, h3, h4]

theorem slotEnds_length {W T : ℕ} {ws : List Worker} (hsh : WorkersShape W T ws) :
    (slotEnds ws).length = W * T := by
  unfold slotEnds
  rw [List.length_flatMap]
  show (ws.map fun w => (w.threads.map ThreadSlot.get_end_time).length).sum = W * T
  have hcongr : (ws.map fun w => (w.threads.map ThreadSlot.get_end_time).length)
      = ws.map fun _ => T := by
    apply List.map_congr_left
    intro w hw
    obtain ⟨i, hi⟩ := List.mem_iff_getElem?.mp hw
    simp [(hsh.2 i w hi).2.1]
  rw [hcongr, sum_map_constN, hsh.1]

theorem slotEnds_bounds {ws : List Worker} (hc : SlotsChain ws)
    (hdur : ∀ j ∈ slotJobs ws, 0 ≤ j.duration) :
    ∀ e ∈ slotEnds ws, 0 ≤ e ∧ e ≤ pymax (ws.map Worker.get_total_end_time) 0 := by
  intro e he
  unfold slotEnds at he
  rw [List.mem_flatMap] at he
  obtain ⟨w, hw, he2⟩ := he
  obtain ⟨t, ht, rfl⟩ := List.mem_map.mp he2
  constructor
  · rw [← slot_sum_eq_end (hc w hw t ht)]
    apply List.sum_nonneg
    intro q hq
    obtain ⟨j, hj, rfl⟩ := List.mem_map.mp hq
    exact hdur j (mem_slotJobs_of_mem hw ht hj)
  · refine le_trans ?_
      (le_pymax_of_mem (List.mem_map_of_mem Worker.get_total_end_time hw) 0)
    exact le_pymax_of_mem (List.mem_map_of_mem ThreadSlot.get_end_time ht) 0

theorem makespan_eq_foldMax {ws : List Worker} (hc : SlotsChain ws)
    (hdur : ∀ j ∈ slotJobs ws, 0 ≤ j.duration) :
    pymax (ws.map Worker.get_total_end_time) 0
      = foldMax ((slotJobs ws).map Job.end_time) := by
  have hslot : ∀ w ∈ ws, ∀ t ∈ w.threads,
      ThreadSlot.get_end_time t = foldMax (t.jobs.map Job.end_time) := by
    intro w hw t ht
    have hcw := hc w hw t ht
    have hdt : ∀ j ∈ t.jobs, 0 ≤ j.duration :=
      fun j hj => hdur j (mem_slotJobs_of_mem hw ht hj)
    have hnn : 0 ≤ ThreadSlot.get_end_time t := by
      rw [← slot_sum_eq_end hcw]
      apply List.sum_nonneg
      intro q hq
      obtain ⟨j, hj, rfl⟩ := List.mem_map.mp hq
      exact hdt j hj
    apply le_antisymm
    · cases hjobs : t.jobs with
      | nil =>
        have hz : ThreadSlot.get_end_time t = 0 := by
          simp [ThreadSlot.get_end_time, hjobs]
        rw [hz]
        exact foldMax_nonneg _
      | cons j0 js =>
        cases hgl : (j0 :: js).getLast? with
        | none => simp at hgl
        | some jl =>
          have he : ThreadSlot.get_end_time t = jl.end_time := by
            simp [ThreadSlot.get_end_time, hjobs, hgl]
          rw [he]
          apply le_foldMax_of_mem
          apply List.mem_map_of_mem
          exact List.mem_of_getLast?_eq_some hgl
    · apply foldMax_le _ hnn
      intro x hx
      obtain ⟨j, hj, rfl⟩ := List.mem_map.mp hx
      exact (chainFrom_end_bounds t.jobs 0 hcw hdt j hj).2
  have hworker : ∀ w ∈ ws, Worker.get_total_end_time w
      = foldMax ((w.threads.flatMap ThreadSlot.jobs).map Job.end_time) := by
    intro w hw
    show pymax (w.threads.map ThreadSlot.get_end_time) 0 = _
    rw [pymax_eq_foldMax (by
      intro x hx
      obtain ⟨t, ht, rfl⟩ := List.mem_map.mp hx
      rw [hslot w hw t ht]
      exact foldMax_nonneg _)]
    rw [List.map_congr_left (fun t ht => hslot w hw t ht)]
    rw [foldMax_map_foldMax (fun t => t.jobs.map Job.end_time) w.threads]
    rw [← map_flatMap']
  rw [pymax_eq_foldMax (by
    intro x hx
    obtain ⟨w, hw, rfl⟩ := List.mem_map.mp hx
    rw [hworker w hw]
    exact foldMax_nonneg _)]
  rw [List.map_congr_left hworker]
  rw [foldMax_map_foldMax
    (fun w => (w.threads.flatMap ThreadSlot.jobs).map Job.end_time) ws]
  show foldMax (ws.flatMap fun w => (w.threads.flatMap ThreadSlot.jobs).map
    Job.end_time) = _
  unfold slotJobs
  rw [← map_flatMap']

/-! ## The run depends only on the ids and durations of the jobs -/

theorem assignedJob_proj_congr {t : ThreadSlot} {j1 j2 : Job}
    (h : proj j1 = proj j2) : assignedJob t j1 = assignedJob t j2 := by
  cases j1
  cases j2
  simp only [proj, Prod.mk.injEq] at h
  simp [assignedJob, h.1, h.2]

theorem stepAssign_proj_congr {ws : List Worker} {j1 j2 : Job}
    (h : proj j1 = proj j2) : stepAssign ws j1 = stepAssign ws j2 := by
  cases hsel : selectWorker ws with
  | none => simp [stepAssign, hsel]
  | some p =>
    obtain ⟨wi, w, k⟩ := p
    cases hm : minBy ThreadSlot.get_available_time w.threads with
    | none =>
      simp [stepAssign, hsel, Worker.assign_job,
        Worker.get_earliest_available_thread, hm]
    | some q =>
      obtain ⟨ti, t⟩ := q
      rw [stepAssign_eq j1 hsel hm, stepAssign_eq j2 hsel hm,
        assignedJob_proj_congr h]

theorem stepAssign_proj_out {ws : List Worker} {j : Job} {ws1 : List Worker}
    {j' : Job} (h : stepAssign ws j = some (ws1, j')) : proj j' = proj j := by
  cases hsel : selectWorker ws with
  | none =>
    simp only [stepAssign, hsel] at h
    exact Option.noConfusion h
  | some p =>
    obtain ⟨wi, w, k⟩ := p
    cases hm : minBy ThreadSlot.get_available_time w.threads with
    | none =>
      simp only [stepAssign, hsel, Worker.assign_job,
        Worker.get_earliest_available_thread, hm] at h
      exact Option.noConfusion h
    | some q =>
      obtain ⟨ti, t⟩ := q
      rw [stepAssign_eq j hsel hm] at h
      have h3 := Option.some.inj h
      have h4 : j' = assignedJob t j := (congrArg Prod.snd h3).symm
      rw [h4]
      rfl

theorem runJobs_proj_congr : ∀ {js1 js2 : List Job} (ws : List Worker),
    js1.map proj = js2.map proj → runJobs ws js1 = runJobs ws js2 := by
  intro js1
  induction js1 with
  | nil =>
    intro js2 ws h
    cases js2 with
    | nil => rfl
    | cons j2 r2 => simp at h
  | cons j1 r1 ih =>
    intro js2 ws h
    cases js2 with
    | nil => simp at h
    | cons j2 r2 =>
      simp only [List.map_cons, List.cons.injEq] at h
      obtain ⟨hj, hr⟩ := h
      have hstep := @stepAssign_proj_congr ws j1 j2 hj
      cases hs : stepAssign ws j2 with
      | none => simp only [runJobs, hstep, hs]
      | some p =>
        obtain ⟨ws1, j'⟩ := p
        simp only [runJobs, hstep, hs, ih ws1 hr]

theorem runJobs_us_proj : ∀ {js : List Job} {ws ws' : List Worker} {us : List Job},
    runJobs ws js = some (ws', us) → us.map proj = js.map proj := by
  intro js
  induction js with
  | nil =>
    intro ws ws' us h
    simp only [runJobs, Option.some.injEq, Prod.mk.injEq] at h
    obtain ⟨_, h2⟩ := h
    subst h2
    rfl
  | cons j js ih =>
    intro ws ws' us h
    cases hstep : stepAssign ws j with
    | none =>
      simp only [runJobs, hstep] at h
      exact Option.noConfusion h
    | some p =>
      obtain ⟨ws1, j'⟩ := p
      cases hrun : runJobs ws1 js with
      | none =>
        simp only [runJobs, hstep, hrun] at h
        exact Option.noConfusion h
      | some q =>
        obtain ⟨ws2, us1⟩ := q
        simp only [runJobs, hstep, hrun, Option.some.injEq, Prod.mk.injEq] at h
        obtain ⟨_, h2⟩ := h
        subst h2
        simp only [List.map_cons]
        rw [stepAssign_proj_out hstep, ih hrun]

theorem insertDesc_map_proj_congr : ∀ {l1 l2 : List Job} {j1 j2 : Job},
    proj j1 = proj j2 → l1.map proj = l2.map proj →
    (insertDesc j1 l1).map proj = (insertDesc j2 l2).map proj := by
  intro l1
  induction l1 with
  | nil =>
    intro l2 j1 j2 hj hl
    cases l2 with
    | nil => simp [insertDesc, hj]
    | cons x2 r2 => simp at hl
  | cons x1 r1 ih =>
    intro l2 j1 j2 hj hl
    cases l2 with
    | nil => simp at hl
    | cons x2 r2 =>
      simp only [List.map_cons, List.cons.injEq] at hl
      obtain ⟨hx, hr⟩ := hl
      have hdur : x1.duration = x2.duration := congrArg Prod.snd hx
      have hdurj : j1.duration = j2.duration := congrArg Prod.snd hj
      simp only [insertDesc]
      by_cases hc : x1.duration < j1.duration
      · rw [if_pos hc, if_pos (by rw [← hdur, ← hdurj]; exact hc)]
        simp only [List.map_cons]
        rw [hj, hx, hr]
      · rw [if_neg hc, if_neg (by rw [← hdur, ← hdurj]; exact hc)]
        simp only [List.map_cons]
        rw [hx, ih hj hr]

theorem sortJobsDesc_map_proj_congr {l1 l2 : List Job}
    (hl : l1.map proj = l2.map proj) :
    (sortJobsDesc l1).map proj = (sortJobsDesc l2).map proj := by
  suffices h : ∀ (l1 l2 acc1 acc2 : List Job), l1.map proj = l2.map proj →
      acc1.map proj = acc2.map proj →
      (l1.foldl (fun acc j => insertDesc j acc) acc1).map proj
        = (l2.foldl (fun acc j => insertDesc j acc) acc2).map proj by
    exact h l1 l2 [] [] hl rfl
  intro l1
  induction l1 with
  | nil =>
    intro l2 acc1 acc2 hl2 hacc
    cases l2 with
    | nil => simpa using hacc
    | cons x2 r2 => simp at hl2
  | cons x1 r1 ih =>
    intro l2 acc1 acc2 hl2 hacc
    cases l2 with
    | nil => simp at hl2
    | cons x2 r2 =>
      simp only [List.map_cons, List.cons.injEq] at hl2
      obtain ⟨hx, hr⟩ := hl2
      simp only [List.foldl_cons]
      exact ih r2 _ _ hr (insertDesc_map_proj_congr hx hacc)

theorem init_jobs_map_id (W T : ℕ) (d : List ℚ) :
    (ThreadPoolScheduler.init W T d).jobs.map Job.id = List.range d.length := by
  show ((d.enum.map fun p => Job.fresh p.1 p.2).map Job.id) = _
  rw [List.map_map]
  have hcomp : (Job.id ∘ fun p : ℕ × ℚ => Job.fresh p.1 p.2) = Prod.fst := rfl
  rw [hcomp, List.enum_map_fst]

theorem init_ids_nodup (W T : ℕ) (d : List ℚ) :
    ((ThreadPoolScheduler.init W T d).jobs.map Job.id).Nodup := by
  rw [init_jobs_map_id]
  exact List.nodup_range _

theorem postJobs_map_proj {jobs0 us : List Job}
    (hnodup : (jobs0.map Job.id).Nodup)
    (hsub : ∀ u ∈ us, proj u ∈ jobs0.map proj) :
    (postJobs jobs0 us).map proj = jobs0.map proj := by
  unfold postJobs
  rw [List.map_map]
  apply List.map_congr_left
  intro j hj
  show proj ((us.find? fun u => u.id == j.id).getD j) = proj j
  cases hf : us.find? (fun u => u.id == j.id) with
  | none => rfl
  | some u =>
    simp only [Option.getD_some]
    have hid : u.id = j.id := by
      have hb := List.find?_some hf
      exact beq_iff_eq.mp hb
    have humem : u ∈ us := List.mem_of_find?_eq_some hf
    obtain ⟨j2, hj2, hpe⟩ := List.mem_map.mp (hsub u humem)
    have hid2 : j2.id = j.id := by
      have h1 : (proj j2).1 = (proj u).1 := congrArg Prod.fst hpe
      have h2 : j2.id = u.id := h1
      rw [h2, hid]
    have hjeq : j2 = j := List.inj_on_of_nodup_map hnodup hj2 hj hid2
    exact hpe.symm.trans (congrArg proj hjeq)

theorem greedy_lpt_some_elim {s : ThreadPoolScheduler} {m : ℚ} {sch : Schedule}
    {u : List Job} (h : s.greedy_lpt = some (m, sch, u)) :
    ∃ ws' us, runJobs ((List.range s.num_workers).map fun i =>
        Worker.make i s.threads_per_worker) (sortJobsDesc s.jobs) = some (ws', us) ∧
      m = pymax (ws'.map Worker.get_total_end_time) 0 ∧
      sch = build_schedule ws' ∧ u = postJobs s.jobs us := by
  cases hrun : runJobs ((List.range s.num_workers).map fun i =>
      Worker.make i s.threads_per_worker) (sortJobsDesc s.jobs) with
  | none =>
    simp only [ThreadPoolScheduler.greedy_lpt, hrun] at h
    exact Option.noConfusion h
  | some p =>
    obtain ⟨ws', us⟩ := p
    rw [greedy_lpt_eq hrun] at h
    have h3 := Option.some.inj h
    simp only [Prod.mk.injEq] at h3
    exact ⟨ws', us, rfl, h3.1.symm, h3.2.1.symm, h3.2.2.symm⟩

/-! ## Claims C1-C4 -/

/-- C1, counterexample: on `durations = [5,3,8,6,2]` with `worker_count = 2`
and `threads_per_worker = 2`, `greedy_lpt` does *not* return a makespan of
`11.0` (it returns `8`). -/
theorem C1_counterexample :
    ((ThreadPoolScheduler.init 2 2 [5, 3, 8, 6, 2]).greedy_lpt.map fun r => r.1)
      ≠ some 11 := by
  with_unfolding_all decide

/-- C1 (amended): for the input `durations = [5,3,8,6,2]` with
`worker_count = 2` and `threads_per_worker = 2`, `greedy_lpt` processes the
jobs in descending-duration order `[8,6,5,3,2]` and returns a makespan of
`8.0` (not `11.0`: job 8 and job 6 land on worker 0's two slots, jobs 5, 3
and 2 on worker 1's, and the latest end time is 8). -/
theorem C1_scenarioA :
    (sortJobsDesc (ThreadPoolScheduler.init 2 2 [5, 3, 8, 6, 2]).jobs).map Job.duration
        = [8, 6, 5, 3, 2] ∧
    ((ThreadPoolScheduler.init 2 2 [5, 3, 8, 6, 2]).greedy_lpt.map fun r => r.1)
        = some 8 := by
  with_unfolding_all decide

/-- C2, counterexample: constructing a scheduler with `worker_count = 0`
does **not** fail — `__init__` contains no validation and no
`InvalidConfiguration` (or any other) error path, so it is false that for
every duration list construction with `worker_count = 0` errors. -/
theorem C2_counterexample :
    ¬ ∀ d : List ℚ, ∃ e, ThreadPoolScheduler.initChecked 0 2 d = .error e := by
  intro h
  obtain ⟨e, he⟩ := h [1]
  simp [ThreadPoolScheduler.initChecked] at he

/-- C2 (amended): construction never fails, whatever the worker count,
thread count or durations — the constructor performs no validation at all.
With `worker_count = 0` and a nonempty duration list the failure surfaces
only later, when `greedy_lpt` calls `min` on the empty worker list (a
`ValueError` mid-scheduling, not an `InvalidConfiguration` at
construction). -/
theorem C2_no_validation (T : ℕ) (d : List ℚ) :
    (∀ W, ThreadPoolScheduler.initChecked W T d =
        .ok (ThreadPoolScheduler.init W T d)) ∧
    (d ≠ [] → (ThreadPoolScheduler.init 0 T d).greedy_lpt = none) := by
  refine ⟨fun _ => rfl, fun hd => ?_⟩
  unfold ThreadPoolScheduler.greedy_lpt
  cases hs : sortJobsDesc (ThreadPoolScheduler.init 0 T d).jobs with
  | nil =>
    exfalso
    have hlen := sortJobsDesc_length (ThreadPoolScheduler.init 0 T d).jobs
    rw [hs] at hlen
    simp [ThreadPoolScheduler.init] at hlen
    exact hd (List.eq_nil_of_length_eq_zero hlen.symm)
  | cons j js =>
    simp [hs, ThreadPoolScheduler.init, runJobs, stepAssign, selectWorker]

/-- Witness for `C2_no_validation`, at `threads_per_worker = 2`,
`durations = [1]`. -/
theorem C2_no_validation_witness :
    ThreadPoolScheduler.initChecked 0 2 [1] =
      .ok (ThreadPoolScheduler.init 0 2 [1]) ∧
    (ThreadPoolScheduler.init 0 2 [1]).greedy_lpt = none :=
  ⟨(C2_no_validation 2 [1]).1 0, (C2_no_validation 2 [1]).2 (by simp)⟩

/-- C3: the code contradicts the claim.  `Worker.assign_job` writes the
worker's id into `job.assigned_worker`, but `ThreadSlot.add_job` then
immediately overwrites it with `-1`, so after the run every job's
`assigned_worker` is `-1` (written twice, ending at the sentinel), never
the id of the worker it was placed on.  Shown here at the failing input
`worker_count = 1`, `threads_per_worker = 1`, `durations = [7]`: the lone
job was placed on worker `0` but records `-1`. -/
theorem C3_assigned_worker_clobbered :
    ((ThreadPoolScheduler.init 1 1 [7]).greedy_lpt.map fun r =>
        r.2.2.map Job.assigned_worker) = some [-1] ∧
    ((ThreadPoolScheduler.init 1 1 [7]).greedy_lpt.map fun r =>
        r.2.2.map Job.assigned_worker) ≠ some [0] := by
  with_unfolding_all decide

/-- C5: `greedy_lpt` implements exactly the spec's per-job rule.  The job
order is the stable descending sort of the durations
(`IsStableDescSort`), and the run is a sequence of `SpecAssign` steps: for
each job the worker whose least-loaded slot's available time is minimal
(lowest worker id on ties), within it the slot with minimal available time
(lowest thread id on ties), start time = the slot's available time before
the assignment, end time = start + duration, job appended so the slot's
available time becomes the job's end time; the returned makespan,
timetable and mutated job list are assembled from exactly that run. -/
theorem C5_greedy_rule (W T : ℕ) (d : List ℚ) (hW : 1 ≤ W) (hT : 1 ≤ T) :
    IsStableDescSort (ThreadPoolScheduler.init W T d).jobs
      (sortJobsDesc (ThreadPoolScheduler.init W T d).jobs) ∧
    ∃ ws' us,
      runJobs ((List.range W).map fun i => Worker.make i T)
        (sortJobsDesc (ThreadPoolScheduler.init W T d).jobs) = some (ws', us) ∧
      SpecRun ((List.range W).map fun i => Worker.make i T)
        (sortJobsDesc (ThreadPoolScheduler.init W T d).jobs) ws' us ∧
      (ThreadPoolScheduler.init W T d).greedy_lpt =
        some (pymax (ws'.map Worker.get_total_end_time) 0, build_schedule ws',
          postJobs (ThreadPoolScheduler.init W T d).jobs us) := by
  obtain ⟨ws', us, hrun, hsrun, _, _, _, _, hg⟩ := greedy_lpt_run W T hW hT d
  exact ⟨sortJobsDesc_isStableDescSort _, ws', us, hrun, hsrun, hg⟩

/-- Witness for `C5_greedy_rule` at `W = 1`, `T = 1`, `d = [2]`. -/
theorem C5_greedy_rule_witness :
    IsStableDescSort (ThreadPoolScheduler.init 1 1 [2]).jobs
      (sortJobsDesc (ThreadPoolScheduler.init 1 1 [2]).jobs) ∧
    ∃ ws' us,
      runJobs ((List.range 1).map fun i => Worker.make i 1)
        (sortJobsDesc (ThreadPoolScheduler.init 1 1 [2]).jobs) = some (ws', us) ∧
      SpecRun ((List.range 1).map fun i => Worker.make i 1)
        (sortJobsDesc (ThreadPoolScheduler.init 1 1 [2]).jobs) ws' us ∧
      (ThreadPoolScheduler.init 1 1 [2]).greedy_lpt =
        some (pymax (ws'.map Worker.get_total_end_time) 0, build_schedule ws',
          postJobs (ThreadPoolScheduler.init 1 1 [2]).jobs us) :=
  C5_greedy_rule 1 1 [2] (by decide) (by decide)

/-- C8: conservation — for every valid input the job ids of the full
timetable are exactly `{0, …, len(durations) - 1}`, each exactly once
(stated as a permutation of `List.range`). -/
theorem C8_conservation (W T : ℕ) (d : List ℚ) (hW : 1 ≤ W) (hT : 1 ≤ T)
    (_hd : ∀ x ∈ d, 0 ≤ x) :
    ∃ m sch u, (ThreadPoolScheduler.init W T d).greedy_lpt = some (m, sch, u) ∧
      ((schedEntries sch).map ScheduleEntry.job_id).Perm (List.range d.length) := by
  obtain ⟨ws', us, hrun, hsrun, hsh, hchain, hperm, husproj, hg⟩ :=
    greedy_lpt_run W T hW hT d
  refine ⟨_, _, _, hg, ?_⟩
  rw [schedEntries_build, List.map_map]
  have hfun : (ScheduleEntry.job_id ∘ fun j : Job =>
      (⟨j.id, j.duration, j.start_time, j.end_time⟩ : ScheduleEntry)) = Job.id := rfl
  rw [hfun]
  have h1 : ((slotJobs ws').map Job.id).Perm (us.map Job.id) := hperm.map Job.id
  have h2 : us.map Job.id
      = (sortJobsDesc (ThreadPoolScheduler.init W T d).jobs).map Job.id := by
    have e1 : us.map Job.id = (us.map proj).map Prod.fst := by
      rw [List.map_map]; rfl
    have e2 : ((sortJobsDesc (ThreadPoolScheduler.init W T d).jobs).map proj).map
          Prod.fst
        = (sortJobsDesc (ThreadPoolScheduler.init W T d).jobs).map Job.id := by
      rw [List.map_map]; rfl
    rw [e1, husproj, e2]
  have h3 := (sortJobsDesc_perm (ThreadPoolScheduler.init W T d).jobs).map Job.id
  have h4 : (ThreadPoolScheduler.init W T d).jobs.map Job.id
      = List.range d.length := by
    show ((d.enum.map fun p => Job.fresh p.1 p.2).map Job.id) = _
    rw [List.map_map]
    have hcomp : (Job.id ∘ fun p : ℕ × ℚ => Job.fresh p.1 p.2) = Prod.fst := rfl
    rw [hcomp, List.enum_map_fst]
  rw [← h4]
  refine h1.trans ?_
  rw [h2]
  exact h3

/-- Witness for `C8_conservation` at Scenario A's input. -/
theorem C8_conservation_witness :
    ∃ m sch u, (ThreadPoolScheduler.init 2 2 [5, 3, 8, 6, 2]).greedy_lpt
        = some (m, sch, u) ∧
      ((schedEntries sch).map ScheduleEntry.job_id).Perm
        (List.range ([5, 3, 8, 6, 2] : List ℚ).length) :=
  C8_conservation 2 2 [5, 3, 8, 6, 2] (by decide) (by decide) (by decide)

/-- C9: non-overlap — in the timetable of any valid input, within each
thread slot's sequence every pair of consecutive records satisfies
`end_time ≤ start_time` of the next (in fact with equality). -/
theorem C9_non_overlap (W T : ℕ) (d : List ℚ) (hW : 1 ≤ W) (hT : 1 ≤ T)
    (_hd : ∀ x ∈ d, 0 ≤ x) :
    ∃ m sch u, (ThreadPoolScheduler.init W T d).greedy_lpt = some (m, sch, u) ∧
      ∀ wsch ∈ sch, ∀ tjobs ∈ wsch,
        List.Chain' (fun a b : ScheduleEntry => a.end_time ≤ b.start_time) tjobs := by
  obtain ⟨ws', us, hrun, hsrun, hsh, hchain, hperm, husproj, hg⟩ :=
    greedy_lpt_run W T hW hT d
  refine ⟨_, _, _, hg, ?_⟩
  intro wsch hwsch tjobs htjobs
  simp only [build_schedule] at hwsch
  obtain ⟨w, hw, rfl⟩ := List.mem_map.mp hwsch
  obtain ⟨t, ht, rfl⟩ := List.mem_map.mp htjobs
  rw [List.chain'_map]
  exact chainFrom_chain' t.jobs 0 (hchain w hw t ht)

/-- Witness for `C9_non_overlap` at Scenario A's input. -/
theorem C9_non_overlap_witness :
    ∃ m sch u, (ThreadPoolScheduler.init 2 2 [5, 3, 8, 6, 2]).greedy_lpt
        = some (m, sch, u) ∧
      ∀ wsch ∈ sch, ∀ tjobs ∈ wsch,
        List.Chain' (fun a b : ScheduleEntry => a.end_time ≤ b.start_time) tjobs :=
  C9_non_overlap 2 2 [5, 3, 8, 6, 2] (by decide) (by decide) (by decide)

/-- C6: for every valid input the makespan returned by `greedy_lpt` equals
the maximum `end_time` over all scheduled jobs of the timetable (with the
usual `0` default for an empty timetable), and it is zero iff the duration
list is empty or all durations are zero. -/
theorem C6_makespan_max_end (W T : ℕ) (d : List ℚ) (hW : 1 ≤ W) (hT : 1 ≤ T)
    (hd : ∀ x ∈ d, 0 ≤ x) :
    ∃ m sch u, (ThreadPoolScheduler.init W T d).greedy_lpt = some (m, sch, u) ∧
      m = pymax ((schedEntries sch).map ScheduleEntry.end_time) 0 ∧
      (m = 0 ↔ (d = [] ∨ ∀ x ∈ d, x = 0)) := by
  obtain ⟨ws', us, hrun, hsrun, hsh, hchain, hperm, husproj, hg⟩ :=
    greedy_lpt_run W T hW hT d
  have hdmem := stored_duration_mem hperm husproj
  have hdur : ∀ j ∈ slotJobs ws', 0 ≤ j.duration := fun j hj => hd _ (hdmem j hj)
  have hends_nonneg : ∀ x ∈ (slotJobs ws').map Job.end_time, 0 ≤ x := by
    intro x hx
    obtain ⟨j, hj, rfl⟩ := List.mem_map.mp hx
    have hj' := hj
    unfold slotJobs at hj'
    rw [List.mem_flatMap] at hj'
    obtain ⟨w, hw, hj2⟩ := hj'
    rw [List.mem_flatMap] at hj2
    obtain ⟨t, ht, hj3⟩ := hj2
    have hdt : ∀ j2 ∈ t.jobs, 0 ≤ j2.duration :=
      fun j2 hj2 => hdur j2 (mem_slotJobs_of_mem hw ht hj2)
    have hb := (chainFrom_end_bounds t.jobs 0 (hchain w hw t ht) hdt j hj3).1
    exact hb
  have hm := makespan_eq_foldMax hchain hdur
  refine ⟨_, _, _, hg, ?_, ?_⟩
  · rw [hm, schedEntries_build, List.map_map]
    have hfun : (ScheduleEntry.end_time ∘ fun j : Job =>
        (⟨j.id, j.duration, j.start_time, j.end_time⟩ : ScheduleEntry))
        = Job.end_time := rfl
    rw [hfun, pymax_eq_foldMax hends_nonneg]
  · constructor
    · intro hm0
      refine Or.inr ?_
      have hb := slotEnds_bounds hchain hdur
      have hz : ∀ e ∈ slotEnds ws', e = 0 := by
        intro e he
        have hbe := hb e he
        have hle : e ≤ 0 := by rw [← hm0]; exact hbe.2
        linarith [hbe.1]
      have hsum : d.sum = 0 := by
        rw [← stored_total_sum hperm husproj, slotEnds_sum hchain]
        exact List.sum_eq_zero hz
      exact sum_zero_of_nonneg hd hsum
    · intro hcase
      have hall0 : ∀ x ∈ d, x = 0 := by
        rcases hcase with rfl | h
        · intro x hx; simp at hx
        · exact h
      rw [hm]
      apply le_antisymm
      · apply foldMax_le _ (le_refl 0)
        intro x hx
        obtain ⟨j, hj, rfl⟩ := List.mem_map.mp hx
        have hj' := hj
        unfold slotJobs at hj'
        rw [List.mem_flatMap] at hj'
        obtain ⟨w, hw, hj2⟩ := hj'
        rw [List.mem_flatMap] at hj2
        obtain ⟨t, ht, hj3⟩ := hj2
        have hdt : ∀ j2 ∈ t.jobs, 0 ≤ j2.duration :=
          fun j2 hj2 => hdur j2 (mem_slotJobs_of_mem hw ht hj2)
        have hub := (chainFrom_end_bounds t.jobs 0 (hchain w hw t ht) hdt j hj3).2
        have hsum0 : (t.jobs.map Job.duration).sum = 0 := by
          apply List.sum_eq_zero
          intro q hq
          obtain ⟨j2, hj2', rfl⟩ := List.mem_map.mp hq
          exact hall0 _ (hdmem j2 (mem_slotJobs_of_mem hw ht hj2'))
        have hle := chainFrom_lastEnd t.jobs 0 (hchain w hw t ht)
        rw [hle, hsum0, add_zero] at hub
        exact hub
      · exact foldMax_nonneg _

/-- Witness for `C6_makespan_max_end` at Scenario A's input. -/
theorem C6_makespan_max_end_witness :
    ∃ m sch u, (ThreadPoolScheduler.init 2 2 [5, 3, 8, 6, 2]).greedy_lpt
        = some (m, sch, u) ∧
      m = pymax ((schedEntries sch).map ScheduleEntry.end_time) 0 ∧
      (m = 0 ↔ (([5, 3, 8, 6, 2] : List ℚ) = []
        ∨ ∀ x ∈ ([5, 3, 8, 6, 2] : List ℚ), x = 0)) :=
  C6_makespan_max_end 2 2 [5, 3, 8, 6, 2] (by decide) (by decide) (by decide)

/-- C7: for every valid input the makespan returned by `greedy_lpt` is at
least the sum of all durations divided by
`worker_count × threads_per_worker` (the pigeonhole lower bound). -/
theorem C7_lower_bound (W T : ℕ) (d : List ℚ) (hW : 1 ≤ W) (hT : 1 ≤ T)
    (hd : ∀ x ∈ d, 0 ≤ x) :
    ∃ m sch u, (ThreadPoolScheduler.init W T d).greedy_lpt = some (m, sch, u) ∧
      d.sum / ((W * T : ℕ) : ℚ) ≤ m := by
  obtain ⟨ws', us, hrun, hsrun, hsh, hchain, hperm, husproj, hg⟩ :=
    greedy_lpt_run W T hW hT d
  have hdmem := stored_duration_mem hperm husproj
  have hdur : ∀ j ∈ slotJobs ws', 0 ≤ j.duration := fun j hj => hd _ (hdmem j hj)
  refine ⟨_, _, _, hg, ?_⟩
  have hsum : d.sum = (slotEnds ws').sum := by
    rw [← stored_total_sum hperm husproj, slotEnds_sum hchain]
  have hb := slotEnds_bounds hchain hdur
  have hle : (slotEnds ws').sum ≤ (slotEnds ws').length
      • (pymax (ws'.map Worker.get_total_end_time) 0) :=
    List.sum_le_card_nsmul _ _ (fun x hx => (hb x hx).2)
  rw [slotEnds_length hsh, nsmul_eq_mul] at hle
  have hpos : (0 : ℚ) < ((W * T : ℕ) : ℚ) := by
    have h1 : 1 ≤ W * T := Nat.one_le_iff_ne_zero.mpr (by positivity)
    exact_mod_cast h1
  rw [div_le_iff₀ hpos]
  rw [hsum]
  exact le_trans hle (le_of_eq (mul_comm _ _))

/-- Witness for `C7_lower_bound` at Scenario A's input. -/
theorem C7_lower_bound_witness :
    ∃ m sch u, (ThreadPoolScheduler.init 2 2 [5, 3, 8, 6, 2]).greedy_lpt
        = some (m, sch, u) ∧
      ([5, 3, 8, 6, 2] : List ℚ).sum / ((2 * 2 : ℕ) : ℚ) ≤ m :=
  C7_lower_bound 2 2 [5, 3, 8, 6, 2] (by decide) (by decide) (by decide)

/-- C10: calling `greedy_lpt` a second time on the same scheduler instance
returns the same `(makespan, timetable)` pair.  The first run mutates the
shared `Job` records (modelled by the returned post-run job list `u`), but
every decision reads only ids and durations, which the mutation preserves,
so the second call (on the state whose `jobs` is now `u`) reproduces the
result. -/
theorem C10_idempotent (W T : ℕ) (d : List ℚ) (m : ℚ) (sch : Schedule)
    (u : List Job)
    (h : (ThreadPoolScheduler.init W T d).greedy_lpt = some (m, sch, u)) :
    ∃ u2, ({ ThreadPoolScheduler.init W T d with jobs := u }
        : ThreadPoolScheduler).greedy_lpt = some (m, sch, u2) := by
  obtain ⟨ws', us, hrun, hm, hsch, hu⟩ := greedy_lpt_some_elim h
  have husproj := runJobs_us_proj hrun
  have hu_proj : u.map proj = (ThreadPoolScheduler.init W T d).jobs.map proj := by
    rw [hu]
    apply postJobs_map_proj (init_ids_nodup W T d)
    intro x hx
    have hmem : proj x ∈ us.map proj := List.mem_map_of_mem proj hx
    rw [husproj] at hmem
    exact ((sortJobsDesc_perm (ThreadPoolScheduler.init W T d).jobs).map
      proj).mem_iff.mp hmem
  have hsort2 : (sortJobsDesc u).map proj
      = (sortJobsDesc (ThreadPoolScheduler.init W T d).jobs).map proj :=
    sortJobsDesc_map_proj_congr hu_proj
  have hrun2 : runJobs ((List.range W).map fun i => Worker.make i T)
      (sortJobsDesc u) = some (ws', us) := by
    rw [runJobs_proj_congr ((List.range W).map fun i => Worker.make i T) hsort2]
    exact hrun
  refine ⟨postJobs u us, ?_⟩
  have hg2 := @greedy_lpt_eq
    ({ ThreadPoolScheduler.init W T d with jobs := u } : ThreadPoolScheduler)
    ws' us hrun2
  rw [hg2, ← hm, ← hsch]

/-- Witness for `C10_idempotent`: at `W = T = 1`, `d = [2]` the first call
returns makespan `2` with the one-entry timetable; applying the theorem to
that computed result shows the second call returns the same pair. -/
theorem C10_idempotent_witness :
    ∃ u2, ({ ThreadPoolScheduler.init 1 1 [2] with
        jobs := [⟨0, 2, -1, 0, 0, 2⟩] } : ThreadPoolScheduler).greedy_lpt
      = some (2, [[[⟨0, 2, 0, 2⟩]]], u2) :=
  C10_idempotent 1 1 [2] 2 [[[⟨0, 2, 0, 2⟩]]] [⟨0, 2, -1, 0, 0, 2⟩]
    (by with_unfolding_all decide)

/-- C4: the code contradicts the claim.  At `worker_count = 1`,
`threads_per_worker = 1`, `durations = []` the run yields makespan `0`
with an all-empty timetable, and `print_summary` then crashes with an
unguarded `ZeroDivisionError` at the load-balance division
`max(worker_times) / (sum(worker_times) / len(worker_times))` (average is
`0`); the only guarded division in the source is the utilization one. -/
theorem C4_summary_division_crash :
    (ThreadPoolScheduler.init 1 1 []).greedy_lpt = some (0, [[[]]], []) ∧
    (ThreadPoolScheduler.init 1 1 []).print_summary 0 [[[]]] = none := by
  with_unfolding_all decide

end Solver
